import Mathlib

/-!
# Verification of the tg-odesli-bot core pipeline

A shallow embedding of the core pipeline of the `tg_odesli_bot` package
(URL extraction, song resolution, merging of song records, reply
decisions, URL normalization), together with theorems settling the
frozen specification claims.

Modelling conventions:
* Python `set` objects become `Finset String` (only membership,
  emptiness, unions and intersections are used by the source).
* Python `dict` objects whose insertion order is observable (platform
  URL dictionaries) become association lists `List (String × String)`
  with distinct keys; `{**d1, **d2}` becomes `dictMerge`.
* Fallible code (exceptions) returns `Except`/`Option`.
* The asynchronous retry/throttle machinery of `find_song_by_url` is
  modelled one response at a time: the function receives the cache
  lookup result and the HTTP response and produces the outcome of the
  corresponding loop iteration.
-/

/-- `SongUrl` from `bot.py`: a song URL found in text. -/
structure SongUrl where
  platform_key : String
  platform_name : String
  url : String
deriving Repr

/- A `DecidableEq` instance through `decidable_of_iff`, so that
positive equalities of concrete values reduce inside the kernel. -/
instance : DecidableEq SongUrl := fun a b =>
  decidable_of_iff (a.platform_key = b.platform_key ∧
    a.platform_name = b.platform_name ∧ a.url = b.url)
    (by cases a; cases b; simp)

/-- `SongInfo` from `bot.py`: song metadata.  `urls` is the platform
URL dictionary (insertion ordered, hence an association list), `none`
models Python `None`. -/
structure SongInfo where
  ids : Finset String
  title : Option String
  artist : Option String
  urls : Option (List (String × String))
  thumbnail_url : Option String
  urls_in_text : Finset String

instance : DecidableEq SongInfo := fun a b =>
  decidable_of_iff (a.ids = b.ids ∧ a.title = b.title ∧
    a.artist = b.artist ∧ a.urls = b.urls ∧
    a.thumbnail_url = b.thumbnail_url ∧ a.urls_in_text = b.urls_in_text)
    (by cases a; cases b; simp)

instance : Inhabited SongInfo :=
  ⟨⟨∅, none, none, none, none, ∅⟩⟩

/-- `SongInfo.__bool__`: a `SongInfo` is truthy iff its `ids` set is
nonempty. -/
def SongInfo.truthy (s : SongInfo) : Bool :=
  s.ids ≠ ∅

/-- The empty `SongInfo` that `_find_songs` substitutes for a failed
resolution: `SongInfo(set(), None, None, None, None, {song_url.url})`. -/
def emptySongInfo (url : String) : SongInfo :=
  ⟨∅, none, none, none, none, {url}⟩

/-- Python dict update `{**d1, **d2}` on insertion-ordered
association lists: keys of `d1` in order (values overridden by `d2`
where present), followed by the keys of `d2` not in `d1`, in `d2`
order. -/
def dictMerge (d1 d2 : List (String × String)) : List (String × String) :=
  d1.map (fun kv => match d2.find? (fun kv2 => kv2.1 = kv.1) with
    | some kv2 => (kv.1, kv2.2)
    | none => kv) ++
  d2.filter (fun kv2 => ¬ d1.any (fun kv => kv.1 = kv2.1))

/-! ## The merge engine (`OdesliBot._merge_same_songs`)

Faithful translation of the source.  The Python function mutates the
`SongInfo` objects of the input tuple in place and tracks absorbed
entries in the index set `merged_song_info_indexes`; the translation
passes the current values of all entries (`sis`) plus the absorbed
index set through two nested folds.

Source facts mirrored exactly:
* the outer loop visits every index; it skips falsy (empty-`ids`)
  entries and already-absorbed entries;
* `ids1 = song_info1.ids` is captured once, before the inner loop,
  and is never refreshed: every intersection test of the pass and
  every `song_info1.ids = ids1 | ids2` assignment uses this captured
  set;
* the inner loop visits every index (earlier ones included), skipping
  the entry itself (`song_info2 is song_info1`), absorbed entries and
  falsy entries;
* `urls` are combined with `{**song_info1.urls, **song_info2.urls}`
  only when both dictionaries are truthy (non-`None` and nonempty);
* `urls_in_text` accumulates on the current value. -/

/-- One inner-loop step of `_merge_same_songs` for outer index `idx1`
with captured id set `ids1`. -/
def mergeInnerStep (idx1 : Nat) (ids1 : Finset String)
    (st : List SongInfo × Finset Nat) (idx2 : Nat) :
    List SongInfo × Finset Nat :=
  let sis := st.1
  let merged := st.2
  if idx2 = idx1 ∨ idx2 ∈ merged ∨ (sis.getD idx2 default).ids = ∅ then
    st
  else
    let si2 := sis.getD idx2 default
    if (ids1 ∩ si2.ids).Nonempty then
      let si1 := sis.getD idx1 default
      let newUrls : Option (List (String × String)) :=
        match si1.urls, si2.urls with
        | some u1, some u2 =>
          if ¬ u1.isEmpty ∧ ¬ u2.isEmpty then some (dictMerge u1 u2)
          else si1.urls
        | _, _ => si1.urls
      let newSi1 : SongInfo :=
        { si1 with
            ids := ids1 ∪ si2.ids
            urls := newUrls
            urls_in_text := si1.urls_in_text ∪ si2.urls_in_text }
      (sis.set idx1 newSi1, insert idx2 merged)
    else
      st

/-- One outer-loop step of `_merge_same_songs`. -/
def mergeOuterStep (st : List SongInfo × Finset Nat) (idx1 : Nat) :
    List SongInfo × Finset Nat :=
  let sis := st.1
  let merged := st.2
  let si1 := sis.getD idx1 default
  if si1.ids = ∅ then st
  else if idx1 ∈ merged then st
  else
    (List.range sis.length).foldl (mergeInnerStep idx1 si1.ids) st

/-- `OdesliBot._merge_same_songs`. -/
def merge_same_songs (song_infos : List SongInfo) : List SongInfo :=
  let final :=
    (List.range song_infos.length).foldl mergeOuterStep (song_infos, ∅)
  (List.range song_infos.length).filterMap fun idx =>
    if idx ∈ final.2 then none else some (final.1.getD idx default)

/-! ## The specification's reference merge algorithm (§4.4)

Transcribed from the spec's words, to be compared with
`merge_same_songs`: "Single left-to-right pass: for each
not-yet-absorbed entry `A` (by original position), scan every later,
not-yet-absorbed entry `B`; if `A.ids ∩ B.ids ≠ ∅`, union `B`'s
ids/platformUrls/sourceUrls into `A` and mark `B` absorbed.  Because
`A.ids` grows as absorptions happen, a later `B` may become mergeable
into `A` only after an intermediate entry already enlarged `A`'s id
set"; entries with empty ids never participate; survivors keep their
original relative order. -/

/-- Union of optional platform-URL dictionaries, for the spec's
"union `B`'s platformUrls into `A`". -/
def specUrlUnion (u1 u2 : Option (List (String × String))) :
    Option (List (String × String)) :=
  match u1, u2 with
  | some d1, some d2 => some (dictMerge d1 d2)
  | some d1, none => some d1
  | none, some d2 => some d2
  | none, none => none

/-- Inner scan of the spec's reference pass: `a` absorbs every later
not-yet-absorbed entry whose ids intersect `a`'s *current* (growing)
ids; returns the enlarged `a` and the surviving later entries. -/
def specScan (a : SongInfo) : List SongInfo → SongInfo × List SongInfo
  | [] => (a, [])
  | b :: rest =>
    if b.ids = ∅ then
      let (a', rest') := specScan a rest
      (a', b :: rest')
    else if (a.ids ∩ b.ids).Nonempty then
      specScan
        { a with
            ids := a.ids ∪ b.ids
            urls := specUrlUnion a.urls b.urls
            urls_in_text := a.urls_in_text ∪ b.urls_in_text }
        rest
    else
      let (a', rest') := specScan a rest
      (a', b :: rest')

/-- The surviving tail returned by `specScan` is no longer than its
input (each step keeps or absorbs one entry). -/
theorem specScan_snd_length (a : SongInfo) (l : List SongInfo) :
    (specScan a l).2.length ≤ l.length := by
  induction l generalizing a with
  | nil => simp [specScan]
  | cons b rest ih =>
    simp only [specScan]
    split
    · simpa using ih a
    · split
      · exact le_trans (ih _) (Nat.le_succ _)
      · simpa using ih a

/-- The spec's reference merge (§4.4), with an explicit structural
fuel so that it reduces inside the kernel.  By `specScan_snd_length`
the surviving tail shrinks at each step, so fuel equal to the input
length (as supplied by `specMergeForward`) is never exhausted. -/
def specMergeForwardAux : Nat → List SongInfo → List SongInfo
  | _, [] => []
  | 0, l => l
  | fuel + 1, a :: rest =>
    if a.ids = ∅ then a :: specMergeForwardAux fuel rest
    else
      (specScan a rest).1 :: specMergeForwardAux fuel (specScan a rest).2

/-- The spec's reference merge (§4.4): a single left-to-right pass,
each entry scanning only the later not-yet-absorbed entries with its
current id set. -/
def specMergeForward (l : List SongInfo) : List SongInfo :=
  specMergeForwardAux l.length l

/-! Shorthands for building concrete `SongInfo` values in
counterexamples: entries carrying only ids (and a marker source URL,
so provenance is visible). -/

/-- A `SongInfo` with the given ids, platform URL dictionary and
source-URL marker. -/
def mkSong (ids : Finset String) (urls : Option (List (String × String)))
    (src : String) : SongInfo :=
  ⟨ids, none, none, urls, none, {src}⟩

/-! ## The merge algorithm the code actually implements

`merge_same_songs` does *not* implement the spec's §4.4 reference
algorithm (see `c2_counterexample` below).  The reference below
transcribes the corrected description: a single left-to-right pass in
which each nonempty, not-yet-absorbed entry `A` scans every *other*
not-yet-absorbed nonempty entry `B` — earlier ones included — and
absorbs `B` when `A`'s id set *as captured at the start of `A`'s
scan* intersects `B`'s current ids; each absorption sets `A`'s ids to
that captured set united with `B`'s ids (ids gained from earlier
absorptions in the same scan are discarded), merges `B`'s platform
URLs into `A`'s when both dictionaries are nonempty, and unions `B`'s
source URLs into `A`'s; absorbed entries are removed (`none`);
survivors keep their original relative order. -/

/-- Inner scan step of the corrected reference: the live entries are a
list of `Option SongInfo`, absorbed entries being `none`. -/
def refInnerStep (idx1 : Nat) (ids1 : Finset String)
    (st : List (Option SongInfo)) (idx2 : Nat) : List (Option SongInfo) :=
  if idx2 = idx1 then st
  else
    match st.getD idx2 none with
    | none => st
    | some si2 =>
      if si2.ids = ∅ then st
      else if (ids1 ∩ si2.ids).Nonempty then
        match st.getD idx1 none with
        | none => st
        | some si1 =>
          let newUrls : Option (List (String × String)) :=
            match si1.urls, si2.urls with
            | some u1, some u2 =>
              if ¬ u1.isEmpty ∧ ¬ u2.isEmpty then some (dictMerge u1 u2)
              else si1.urls
            | _, _ => si1.urls
          ((st.set idx1 (some
            { si1 with
                ids := ids1 ∪ si2.ids
                urls := newUrls
                urls_in_text := si1.urls_in_text ∪ si2.urls_in_text })).set
            idx2 none)
      else st

/-- Outer step of the corrected reference: position `idx1` scans all
other live entries with its id set captured once. -/
def refOuterStep (st : List (Option SongInfo)) (idx1 : Nat) :
    List (Option SongInfo) :=
  match st.getD idx1 none with
  | none => st
  | some si1 =>
    if si1.ids = ∅ then st
    else (List.range st.length).foldl (refInnerStep idx1 si1.ids) st

/-- The corrected reference merge algorithm. -/
def mergeAmendedRef (song_infos : List SongInfo) : List SongInfo :=
  ((List.range song_infos.length).foldl refOuterStep
    (song_infos.map some)).filterMap id

/-- The Option-list view of the translation's state: absorbed indices
become `none`, live indices keep their current value. -/
def sisToOpt (sis : List SongInfo) (merged : Finset Nat) :
    List (Option SongInfo) :=
  (List.range sis.length).map fun i =>
    if i ∈ merged then none else some (sis.getD i default)

theorem length_sisToOpt (sis : List SongInfo) (merged : Finset Nat) :
    (sisToOpt sis merged).length = sis.length := by
  simp [sisToOpt]

theorem getD_sisToOpt (sis : List SongInfo) (merged : Finset Nat) (i : Nat) :
    (sisToOpt sis merged).getD i none =
      if i < sis.length then
        (if i ∈ merged then none else some (sis.getD i default))
      else none := by
  by_cases h : i < sis.length
  · rw [List.getD_eq_getElem (sisToOpt sis merged) none
      (by simpa [length_sisToOpt] using h)]
    simp [sisToOpt, h]
  · rw [List.getD_eq_default]
    · simp [h]
    · simpa [length_sisToOpt] using Nat.le_of_not_lt h

theorem getElem_sisToOpt (sis : List SongInfo) (merged : Finset Nat) (i : Nat)
    (h : i < (sisToOpt sis merged).length) :
    (sisToOpt sis merged)[i] =
      if i ∈ merged then none else some (sis.getD i default) := by
  simp [sisToOpt]

theorem sisToOpt_set_absorb (sis : List SongInfo) (merged : Finset Nat)
    (idx1 idx2 : Nat) (v : SongInfo) (h1 : idx1 < sis.length)
    (hne : idx2 ≠ idx1) (hm1 : idx1 ∉ merged) :
    ((sisToOpt sis merged).set idx1 (some v)).set idx2 none =
      sisToOpt (sis.set idx1 v) (insert idx2 merged) := by
  apply List.ext_getElem
  · simp [sisToOpt]
  · intro i hi1 hi2
    have hilen : i < sis.length := by
      simpa [length_sisToOpt] using hi1
    simp only [List.getElem_set]
    rw [getElem_sisToOpt _ _ _ (by simpa [length_sisToOpt] using hilen),
      getElem_sisToOpt _ _ _ (by simpa [length_sisToOpt, List.length_set]
        using hilen)]
    by_cases hc2 : idx2 = i
    · subst hc2
      simp
    · by_cases hc1 : idx1 = i
      · subst hc1
        have : idx1 ∉ insert idx2 merged := by
          simp [Finset.mem_insert, hm1]
          intro hcontra
          exact hne hcontra.symm
        have hlt : idx1 < (sis.set idx1 v).length := by simpa using h1
        simp [hc2, this, List.getElem?_eq_getElem hlt, List.getElem_set]
      · have : i ∈ insert idx2 merged ↔ i ∈ merged := by
          simp [Finset.mem_insert]
          intro hcontra
          exact absurd hcontra.symm hc2
        by_cases hm : i ∈ merged
        · simp [hc1, hc2, this, hm]
        · simp [hc1, hc2, this, hm, List.getD_eq_getElem _ _ hilen,
            List.getD_eq_getElem _ _ (by simpa using hilen : i < (sis.set idx1 v).length),
            List.getElem_set, Ne.symm]


theorem getElemQD_sisToOpt (sis : List SongInfo) (merged : Finset Nat)
    (i : Nat) :
    (sisToOpt sis merged)[i]?.getD none =
      if i < sis.length then
        (if i ∈ merged then none else some (sis[i]?.getD default))
      else none := by
  by_cases h : i < sis.length
  · rw [List.getElem?_eq_getElem (by simpa [length_sisToOpt] using h)]
    rw [getElem_sisToOpt sis merged i (by simpa [length_sisToOpt] using h)]
    simp [h, List.getD_eq_getElem?_getD]
  · rw [List.getElem?_eq_none
      (by rw [length_sisToOpt]; exact Nat.le_of_not_lt h)]
    simp [h]

/-- One inner step of the corrected reference tracks one inner step of
the translation. -/
theorem refInnerStep_tracks (idx1 idx2 : Nat) (ids1 : Finset String)
    (sis : List SongInfo) (merged : Finset Nat)
    (h1 : idx1 < sis.length) (hm1 : idx1 ∉ merged) :
    refInnerStep idx1 ids1 (sisToOpt sis merged) idx2 =
      sisToOpt (mergeInnerStep idx1 ids1 (sis, merged) idx2).1
        (mergeInnerStep idx1 ids1 (sis, merged) idx2).2 ∧
    (mergeInnerStep idx1 ids1 (sis, merged) idx2).1.length = sis.length ∧
    idx1 ∉ (mergeInnerStep idx1 ids1 (sis, merged) idx2).2 := by
  by_cases he : idx2 = idx1
  · subst he
    simp [refInnerStep, mergeInnerStep, hm1]
  by_cases hr : idx2 < sis.length
  · by_cases hm2 : idx2 ∈ merged
    · simp [refInnerStep, mergeInnerStep, he, hm2, hm1,
        getElemQD_sisToOpt, hr]
    · by_cases hids : sis[idx2].ids = ∅
      · simp [refInnerStep, mergeInnerStep, he, hm2, hm1, hids,
          getElemQD_sisToOpt, hr, List.getD_eq_getElem?_getD,
          List.getElem?_eq_getElem hr]
      · by_cases hint : (ids1 ∩ sis[idx2].ids).Nonempty
        · have hish : idx1 ∉ insert idx2 merged := by
            simp only [Finset.mem_insert]
            push_neg
            exact ⟨fun hcontra => he hcontra.symm, hm1⟩
          have hcond : ¬ (idx2 = idx1 ∨ idx2 ∈ merged ∨
              sis[idx2].ids = ∅) := by
            simp [he, hm2, hids]
          refine ⟨?_, ?_, ?_⟩
          · simp only [refInnerStep, mergeInnerStep,
              List.getD_eq_getElem?_getD, getElemQD_sisToOpt,
              List.getElem?_eq_getElem h1, List.getElem?_eq_getElem hr,
              Option.getD_some, if_pos hr, if_pos h1, if_neg hm2,
              if_neg hids, if_pos hint, if_neg hm1, if_neg he,
              if_neg hcond]
            exact sisToOpt_set_absorb sis merged idx1 idx2 _ h1 he hm1
          · simp only [mergeInnerStep, List.getD_eq_getElem?_getD,
              List.getElem?_eq_getElem h1, List.getElem?_eq_getElem hr,
              Option.getD_some, if_neg hcond, if_pos hint]
            simp
          · simp only [mergeInnerStep, List.getD_eq_getElem?_getD,
              List.getElem?_eq_getElem h1, List.getElem?_eq_getElem hr,
              Option.getD_some, if_neg hcond, if_pos hint]
            exact hish
        · simp [refInnerStep, mergeInnerStep, he, hm2, hids, hint,
            getElemQD_sisToOpt, hr, hm1, List.getD_eq_getElem?_getD,
            List.getElem?_eq_getElem hr]
  · have hdef : sis[idx2]?.getD default = default := by
      rw [List.getElem?_eq_none (Nat.le_of_not_lt hr)]
      rfl
    simp [refInnerStep, mergeInnerStep, he, getElemQD_sisToOpt, hr, hdef,
      hm1, List.getD_eq_getElem?_getD,
      show (default : SongInfo).ids = ∅ from rfl]

/-- The inner fold of the corrected reference tracks the inner fold of
the translation over any index list. -/
theorem refInnerFold_tracks (idx1 : Nat) (ids1 : Finset String)
    (idxs : List Nat) :
    ∀ (sis : List SongInfo) (merged : Finset Nat),
    idx1 < sis.length → idx1 ∉ merged →
    idxs.foldl (refInnerStep idx1 ids1) (sisToOpt sis merged) =
      sisToOpt (idxs.foldl (mergeInnerStep idx1 ids1) (sis, merged)).1
        (idxs.foldl (mergeInnerStep idx1 ids1) (sis, merged)).2 ∧
    (idxs.foldl (mergeInnerStep idx1 ids1) (sis, merged)).1.length =
      sis.length ∧
    idx1 ∉ (idxs.foldl (mergeInnerStep idx1 ids1) (sis, merged)).2 := by
  induction idxs with
  | nil => exact fun sis merged h1 hm1 => ⟨rfl, rfl, hm1⟩
  | cons idx2 idxs ih =>
    intro sis merged h1 hm1
    obtain ⟨hstep, hlen, hmem⟩ :=
      refInnerStep_tracks idx1 idx2 ids1 sis merged h1 hm1
    simp only [List.foldl_cons, hstep]
    obtain ⟨ih1, ih2, ih3⟩ := ih
      (mergeInnerStep idx1 ids1 (sis, merged) idx2).1
      (mergeInnerStep idx1 ids1 (sis, merged) idx2).2
      (hlen ▸ h1) hmem
    exact ⟨ih1, hlen ▸ ih2, ih3⟩

/-- One outer step of the corrected reference tracks one outer step of
the translation. -/
theorem refOuterStep_tracks (sis : List SongInfo) (merged : Finset Nat)
    (idx1 : Nat) :
    refOuterStep (sisToOpt sis merged) idx1 =
      sisToOpt (mergeOuterStep (sis, merged) idx1).1
        (mergeOuterStep (sis, merged) idx1).2 ∧
    (mergeOuterStep (sis, merged) idx1).1.length = sis.length := by
  by_cases h1 : idx1 < sis.length
  · by_cases hm1 : idx1 ∈ merged
    · constructor
      · simp only [refOuterStep, mergeOuterStep,
          List.getD_eq_getElem?_getD, getElemQD_sisToOpt, if_pos h1,
          if_pos hm1, List.getElem?_eq_getElem h1, Option.getD_some]
        split <;> rfl
      · simp only [mergeOuterStep, List.getD_eq_getElem?_getD,
          List.getElem?_eq_getElem h1, Option.getD_some]
        split
        · rfl
        · simp [hm1]
    · by_cases hempty : sis[idx1].ids = ∅
      · constructor
        · simp only [refOuterStep, mergeOuterStep,
            List.getD_eq_getElem?_getD, getElemQD_sisToOpt, if_pos h1,
            if_neg hm1, List.getElem?_eq_getElem h1, Option.getD_some,
            if_pos hempty]
        · simp only [mergeOuterStep, List.getD_eq_getElem?_getD,
            List.getElem?_eq_getElem h1, Option.getD_some,
            if_pos hempty]
      · obtain ⟨hfold, hlen, _⟩ := refInnerFold_tracks idx1
          sis[idx1].ids (List.range sis.length) sis merged h1 hm1
        constructor
        · simp only [refOuterStep, mergeOuterStep,
            List.getD_eq_getElem?_getD, getElemQD_sisToOpt, if_pos h1,
            if_neg hm1, List.getElem?_eq_getElem h1, Option.getD_some,
            if_neg hempty, length_sisToOpt]
          exact hfold
        · simp only [mergeOuterStep, List.getD_eq_getElem?_getD,
            List.getElem?_eq_getElem h1, Option.getD_some,
            if_neg hempty, if_neg hm1]
          exact hlen
  · have hdef : sis[idx1]?.getD default = default := by
      rw [List.getElem?_eq_none (Nat.le_of_not_lt h1)]
      rfl
    constructor
    · simp [refOuterStep, mergeOuterStep, List.getD_eq_getElem?_getD,
        getElemQD_sisToOpt, h1, hdef,
        show (default : SongInfo).ids = ∅ from rfl]
    · simp [mergeOuterStep, List.getD_eq_getElem?_getD, hdef,
        show (default : SongInfo).ids = ∅ from rfl]

/-- The outer fold of the corrected reference tracks the outer fold of
the translation. -/
theorem refOuterFold_tracks (idxs : List Nat) :
    ∀ (sis : List SongInfo) (merged : Finset Nat),
    idxs.foldl refOuterStep (sisToOpt sis merged) =
      sisToOpt (idxs.foldl mergeOuterStep (sis, merged)).1
        (idxs.foldl mergeOuterStep (sis, merged)).2 ∧
    (idxs.foldl mergeOuterStep (sis, merged)).1.length = sis.length := by
  induction idxs with
  | nil => exact fun sis merged => ⟨rfl, rfl⟩
  | cons idx1 idxs ih =>
    intro sis merged
    obtain ⟨hstep, hlen⟩ := refOuterStep_tracks sis merged idx1
    simp only [List.foldl_cons, hstep]
    obtain ⟨ih1, ih2⟩ := ih (mergeOuterStep (sis, merged) idx1).1
      (mergeOuterStep (sis, merged) idx1).2
    exact ⟨ih1, hlen ▸ ih2⟩

theorem sisToOpt_empty (sis : List SongInfo) :
    sisToOpt sis ∅ = sis.map some := by
  apply List.ext_getElem
  · simp [sisToOpt]
  · intro i hi1 hi2
    have hilen : i < sis.length := by simpa [length_sisToOpt] using hi1
    rw [getElem_sisToOpt sis ∅ i hi1]
    simp [List.getD_eq_getElem?_getD, List.getElem?_eq_getElem hilen]

/-- Claim C2 (amended): `_merge_same_songs` computes, on every input,
exactly the corrected reference algorithm `mergeAmendedRef`: a single
left-to-right pass in which each nonempty not-yet-absorbed entry A
scans every *other* not-yet-absorbed nonempty entry B (earlier
entries included), absorbing B when A's id set as captured at the
start of A's scan intersects B's current ids; each absorption resets
A's ids to that captured set united with B's ids, merges B's platform
URLs into A's when both dictionaries are nonempty, and unions B's
source URLs into A's; survivors keep their original relative order. -/
theorem merge_same_songs_eq_amendedRef (song_infos : List SongInfo) :
    merge_same_songs song_infos = mergeAmendedRef song_infos := by
  unfold merge_same_songs mergeAmendedRef
  rw [← sisToOpt_empty]
  obtain ⟨hfold, hlen⟩ :=
    refOuterFold_tracks (List.range song_infos.length) song_infos ∅
  rw [hfold]
  unfold sisToOpt
  rw [List.filterMap_map, hlen]
  apply List.filterMap_congr
  intro i hi
  simp

/-! ## Counterexamples and further properties of the merge engine -/

/-- Concrete input separating `_merge_same_songs` from the spec's §4.4
reference algorithm.  Because the code tests against the id set
captured at the start of the pass (and its final overwrite discards
ids gained from intermediate absorptions), entry 3 (ids `{2}`) is not
absorbed, while the spec's growing-id pass absorbs it. -/
def mergeSepInput : List SongInfo :=
  [ mkSong {"1"} (some [("Deezer", "https://deezer.example/a")])
      "https://u0.example"
  , mkSong {"1", "2"} (some [("SoundCloud", "https://sc.example/a")])
      "https://u1.example"
  , mkSong {"1", "3"} (some [("Spotify", "https://sp.example/a")])
      "https://u2.example"
  , mkSong {"2"} (some [("Tidal", "https://td.example/a")])
      "https://u3.example" ]

/-- Claim C2 (counterexample): on `mergeSepInput` the translation of
`_merge_same_songs` disagrees with the spec's reference algorithm
`specMergeForward` — the code keeps two entries (with ids `{1,3}` and
`{2}`), the spec's algorithm merges everything into one. -/
theorem c2_counterexample :
    merge_same_songs mergeSepInput ≠ specMergeForward mergeSepInput := by
  decide

/-- Input on which `_merge_same_songs` is not idempotent: the first
pass leaves two surviving entries whose id sets intersect (ids `{1,2}`
and `{2,3}`), which a second pass merges. -/
def mergeNonIdemInput : List SongInfo :=
  [ mkSong {"1"} (some [("Deezer", "https://deezer.example/b")])
      "https://v0.example"
  , mkSong {"1", "2"} (some [("SoundCloud", "https://sc.example/b")])
      "https://v1.example"
  , mkSong {"3"} (some [("Spotify", "https://sp.example/b")])
      "https://v2.example"
  , mkSong {"3", "2"} (some [("Tidal", "https://td.example/b")])
      "https://v3.example" ]

/-- Claim C3 (counterexample): `_merge_same_songs` is not idempotent:
re-merging the merge of `mergeNonIdemInput` changes the result (the
first merge returns two entries with intersecting id sets, the second
merge collapses them). -/
theorem c3_counterexample :
    merge_same_songs (merge_same_songs mergeNonIdemInput) ≠
      merge_same_songs mergeNonIdemInput := by
  decide

/-- If the captured id set `ids1` is disjoint from every other live
entry, an inner pass of `_merge_same_songs` changes nothing. -/
theorem mergeInnerFold_noop (sis : List SongInfo) (idx1 : Nat)
    (ids1 : Finset String)
    (hdisj : ∀ idx2, (h : idx2 < sis.length) → idx2 ≠ idx1 →
      ids1 ∩ sis[idx2].ids = ∅) :
    ∀ idxs : List Nat,
      idxs.foldl (mergeInnerStep idx1 ids1) (sis, ∅) = (sis, ∅) := by
  intro idxs
  induction idxs with
  | nil => rfl
  | cons idx2 idxs ih =>
    have hstep : mergeInnerStep idx1 ids1 (sis, ∅) idx2 = (sis, ∅) := by
      by_cases hc : idx2 = idx1 ∨ idx2 ∈ (∅ : Finset Nat) ∨
          (sis.getD idx2 default).ids = ∅
      · simp only [mergeInnerStep, if_pos hc]
      · push_neg at hc
        obtain ⟨hne, _, hids⟩ := hc
        have hlt : idx2 < sis.length := by
          by_contra hge
          exact hids (by
            rw [List.getD_eq_default _ _ (Nat.le_of_not_lt hge)]
            rfl)
        have hdis := hdisj idx2 hlt hne
        simp only [mergeInnerStep, if_neg (by
          push_neg
          exact ⟨hne, by simp, hids⟩ : ¬ (idx2 = idx1 ∨
            idx2 ∈ (∅ : Finset Nat) ∨ (sis.getD idx2 default).ids = ∅))]
        rw [if_neg]
        rw [List.getD_eq_getElem _ _ hlt, hdis]
        exact Finset.not_nonempty_empty
    rw [List.foldl_cons, hstep, ih]

/-- If all entries of `sis` have pairwise disjoint id sets, every
outer pass of `_merge_same_songs` changes nothing. -/
theorem mergeOuterFold_noop (sis : List SongInfo)
    (hdisj : ∀ i, (hi : i < sis.length) → ∀ j, (hj : j < sis.length) →
      i ≠ j → sis[i].ids ∩ sis[j].ids = ∅) :
    ∀ idxs : List Nat,
      idxs.foldl mergeOuterStep (sis, ∅) = (sis, ∅) := by
  intro idxs
  induction idxs with
  | nil => rfl
  | cons idx1 idxs ih =>
    have hstep : mergeOuterStep (sis, ∅) idx1 = (sis, ∅) := by
      by_cases hempty : (sis.getD idx1 default).ids = ∅
      · simp only [mergeOuterStep, if_pos hempty]
      · have hlt : idx1 < sis.length := by
          by_contra hge
          exact hempty (by
            rw [List.getD_eq_default _ _ (Nat.le_of_not_lt hge)]
            rfl)
        simp only [mergeOuterStep, if_neg hempty]
        rw [if_neg (by simp)]
        exact mergeInnerFold_noop sis idx1 _
          (fun idx2 h2 hne => by
            rw [List.getD_eq_getElem _ _ hlt]
            exact hdisj idx1 hlt idx2 h2 (fun h => hne h.symm)) _
    rw [List.foldl_cons, hstep, ih]

theorem filterMap_getD_range (l : List SongInfo) :
    ((List.range l.length).filterMap fun idx =>
      if idx ∈ (∅ : Finset Nat) then none
      else some (l.getD idx default)) = l := by
  have h1 : ((List.range l.length).filterMap fun idx =>
      if idx ∈ (∅ : Finset Nat) then none
      else some (l.getD idx default)) =
      (List.range l.length).map fun idx => l.getD idx default := by
    rw [← List.filterMap_eq_map]
    apply List.filterMap_congr
    intro i hi
    simp
  rw [h1]
  apply List.ext_getElem
  · simp
  · intro i hi1 hi2
    simp only [List.getElem_map, List.getElem_range]
    exact List.getD_eq_getElem l default (by simpa using hi1)

/-- Claim C3 (amended): `_merge_same_songs` is *not* idempotent in
general (see `c3_counterexample`); it is idempotent — indeed the
identity — on inputs whose entries have pairwise disjoint id sets. -/
theorem c3_amended (sis : List SongInfo)
    (hdisj : ∀ i, (hi : i < sis.length) → ∀ j, (hj : j < sis.length) →
      i ≠ j → sis[i].ids ∩ sis[j].ids = ∅) :
    merge_same_songs sis = sis ∧
    merge_same_songs (merge_same_songs sis) = merge_same_songs sis := by
  have hid : merge_same_songs sis = sis := by
    unfold merge_same_songs
    rw [mergeOuterFold_noop sis hdisj]
    exact filterMap_getD_range sis
  exact ⟨hid, by rw [hid, hid]⟩

/-- Witness for `c3_amended` at a concrete disjoint input. -/
theorem c3_amended_witness :
    merge_same_songs
        [mkSong {"x1"} (some [("Deezer", "https://d.example/1")])
          "https://w0.example",
         mkSong {"x2"} (some [("Spotify", "https://s.example/2")])
          "https://w1.example"] =
      [mkSong {"x1"} (some [("Deezer", "https://d.example/1")])
        "https://w0.example",
       mkSong {"x2"} (some [("Spotify", "https://s.example/2")])
        "https://w1.example"] :=
  (c3_amended _ (by decide)).1

/-- Sanity check: the translation reproduces the repository's own unit
test `test_merges_urls_for_same_song` (two survivors; the chain
id1–id2–id3–id4 is consolidated — here into the entry that ran last,
matching the source's backward absorption — and `id5` stays apart). -/
theorem merge_matches_repo_unit_test :
    merge_same_songs
        [⟨{"id1", "id2"}, some "Test title", some "Test artist",
          some [("deezer", "http://test_deezer_url")], some "url1",
          {"http://test_deezer_url"}⟩,
         ⟨{"id2", "id3"}, some "Test title", some "Test artist",
          some [("google", "http://test_google_url")], some "url2",
          {"http://test_google_url"}⟩,
         ⟨{"id3", "id4"}, some "Test title", some "Test artist",
          some [("soundcloud", "http://test_soundcloud_url")], some "url3",
          {"http://test_soundcloud_url"}⟩,
         ⟨{"id5"}, some "Not merged", some "Not merged",
          some [("not_merged", "http://not_merged")], some "url4",
          {"http://not_merged"}⟩] =
      [⟨{"id1", "id2", "id3", "id4"}, some "Test title",
        some "Test artist",
        some [("soundcloud", "http://test_soundcloud_url"),
          ("deezer", "http://test_deezer_url"),
          ("google", "http://test_google_url")], some "url3",
        {"http://test_deezer_url", "http://test_google_url",
          "http://test_soundcloud_url"}⟩,
       ⟨{"id5"}, some "Not merged", some "Not merged",
        some [("not_merged", "http://not_merged")], some "url4",
        {"http://not_merged"}⟩] := by
  decide

/-! ## The platform registry (`platforms.py`) and the URL extractor

`platforms.py` registers nine platform classes; `PLATFORMS` preserves
class-definition order (Python dict insertion order), and the `order`
fields are the consecutive integers 0–8, so registry order and
priority order coincide.

The compiled regular expressions (`url_re`, evaluated by Python's
`re.finditer`) are modelled at token level: a message text is the
ordered list of its candidate URL tokens, and each platform carries a
Boolean recognizer abstracting its pattern (scheme prefix plus the
pattern's distinguishing host/path fragments).  `finditer` scans left
to right, so the matches of one platform are the matching tokens in
text order: `text.filter p.matches`. -/

/-- A registered platform: `key`, display `name`, priority `order`,
and the token recognizer standing in for the compiled `url_re`. -/
structure Platform where
  key : String
  name : String
  order : Nat
  url_re : String → Bool

/-- Is `pre` a prefix of `l`? -/
def listPrefixTest : List Char → List Char → Bool
  | [], _ => true
  | _ :: _, [] => false
  | a :: as, b :: bs => a == b && listPrefixTest as bs

/-- Does `sub` occur inside `l`? -/
def listInfixTest (sub : List Char) : List Char → Bool
  | [] => sub.isEmpty
  | c :: rest => listPrefixTest sub (c :: rest) || listInfixTest sub rest

/-- Token has an `http://` or `https://` scheme. -/
def hasScheme (s : String) : Bool :=
  listPrefixTest "http://".toList s.toList ||
    listPrefixTest "https://".toList s.toList

/-- Substring test used by the token recognizers. -/
def containsStr (s sub : String) : Bool :=
  listInfixTest sub.toList s.toList

/-- `DeezerPlatform`. -/
def deezerPlatform : Platform :=
  ⟨"deezer", "Deezer", 0, fun s => hasScheme s &&
    ((containsStr s "deezer.com" &&
        (containsStr s "/album/" || containsStr s "/track/")) ||
      containsStr s "deezer.page.link/")⟩

/-- `SoundCloudPlatform`. -/
def soundcloudPlatform : Platform :=
  ⟨"soundcloud", "SoundCloud", 1, fun s => hasScheme s &&
    (containsStr s "soundcloud.com/" ||
      containsStr s "soundcloud.app.goo.gl/")⟩

/-- `YandexMusicPlatform`. -/
def yandexPlatform : Platform :=
  ⟨"yandex", "Yandex Music", 2, fun s => hasScheme s &&
    containsStr s "music.yandex." &&
    (containsStr s "/album/" || containsStr s "/track/")⟩

/-- `SpotifyPlatform`. -/
def spotifyPlatform : Platform :=
  ⟨"spotify", "Spotify", 3, fun s => hasScheme s &&
    ((containsStr s "spotify.com" &&
        (containsStr s "/album/" || containsStr s "/track/")) ||
      containsStr s "tospotify.com/" || containsStr s "spotify.link/")⟩

/-- `YouTubeMusicPlatform`. -/
def youtubeMusicPlatform : Platform :=
  ⟨"youtubeMusic", "YouTube Music", 4, fun s => hasScheme s &&
    containsStr s "music.youtube.com/" &&
    (containsStr s "watch?v=" || containsStr s "playlist?list=")⟩

/-- `YouTubePlatform` (its pattern anchors the host right after the
scheme, so `music.youtube.com` links do not match it). -/
def youtubePlatform : Platform :=
  ⟨"youtube", "YouTube", 5, fun s => hasScheme s &&
    ((containsStr s "youtube.com/" &&
        !containsStr s "music.youtube.com/" &&
        (containsStr s "watch?v=" || containsStr s "playlist?list=")) ||
      containsStr s "youtu.be/")⟩

/-- `AppleMusicPlatform`. -/
def appleMusicPlatform : Platform :=
  ⟨"appleMusic", "Apple Music", 6, fun s => hasScheme s &&
    containsStr s "music.apple.com/" && containsStr s "/album/"⟩

/-- `TidalPlatform`. -/
def tidalPlatform : Platform :=
  ⟨"tidal", "Tidal", 7, fun s => hasScheme s &&
    containsStr s "tidal.com" &&
    (containsStr s "/track/" || containsStr s "/album/")⟩

/-- `BandcampPlatform`. -/
def bandcampPlatform : Platform :=
  ⟨"bandcamp", "Bandcamp", 8, fun s => hasScheme s &&
    containsStr s "bandcamp.com/" &&
    (containsStr s "/album/" || containsStr s "/track/")⟩

/-- The `PLATFORMS` registry, in registration (= priority) order. -/
def PLATFORMS : List Platform :=
  [deezerPlatform, soundcloudPlatform, yandexPlatform, spotifyPlatform,
   youtubeMusicPlatform, youtubePlatform, appleMusicPlatform,
   tidalPlatform, bandcampPlatform]

/-- `OdesliBot.extract_song_urls`: iterate the registry in order,
skipping YouTube when `skip_youtube`, and append one `SongUrl` per
match of the platform's pattern, in text order. -/
def extract_song_urls (text : List String) (skip_youtube : Bool) :
    List SongUrl :=
  (PLATFORMS.filter
      (fun p => !(skip_youtube && p.key == "youtube"))).flatMap
    fun p => (text.filter p.url_re).map fun u => ⟨p.key, p.name, u⟩

/-- Priority of the platform registered under `key` (0 if absent). -/
def platformOrderOf (key : String) : Nat :=
  match PLATFORMS.find? (fun p => p.key == key) with
  | some p => p.order
  | none => 0

/-- Registry facts: priorities are nondecreasing along the registry. -/
theorem platforms_sorted :
    List.Pairwise (fun p q : Platform => p.order ≤ q.order) PLATFORMS := by
  unfold PLATFORMS deezerPlatform soundcloudPlatform yandexPlatform
    spotifyPlatform youtubeMusicPlatform youtubePlatform
    appleMusicPlatform tidalPlatform bandcampPlatform
  simp [List.pairwise_cons]

/-- Registry facts: each platform's key looks up its own priority. -/
theorem platforms_tag :
    ∀ p ∈ PLATFORMS, platformOrderOf p.key = p.order := by
  intro p hp
  simp only [PLATFORMS, List.mem_cons, List.not_mem_nil, or_false] at hp
  rcases hp with rfl | rfl | rfl | rfl | rfl | rfl | rfl | rfl | rfl <;> rfl

/-- Registry facts: keys are pairwise distinct. -/
theorem platforms_keys_nodup : (PLATFORMS.map Platform.key).Nodup := by
  decide

/-- The extractor output is grouped: tags (registry priorities) are
nondecreasing along the output, for any registry slice with sorted
priorities and faithful key lookup. -/
theorem flatMap_blocks_pairwise (text : List String) (ps : List Platform)
    (hps : List.Pairwise (fun p q : Platform => p.order ≤ q.order) ps)
    (htag : ∀ p ∈ ps, platformOrderOf p.key = p.order) :
    List.Pairwise
      (fun a b : SongUrl =>
        platformOrderOf a.platform_key ≤ platformOrderOf b.platform_key)
      (ps.flatMap fun p =>
        (text.filter p.url_re).map fun u => ⟨p.key, p.name, u⟩) := by
  induction ps with
  | nil => simp
  | cons q ps ih =>
    rw [List.flatMap_cons, List.pairwise_append]
    obtain ⟨hq, hps'⟩ := List.pairwise_cons.mp hps
    refine ⟨?_, ih hps' (fun p hp => htag p (List.mem_cons_of_mem q hp)), ?_⟩
    · apply List.pairwise_of_forall_mem_list
      intro a ha b hb
      obtain ⟨u, _, rfl⟩ := List.mem_map.mp ha
      obtain ⟨v, _, rfl⟩ := List.mem_map.mp hb
      exact le_refl _
    · intro a ha b hb
      obtain ⟨u, _, rfl⟩ := List.mem_map.mp ha
      obtain ⟨p2, hp2, hb2⟩ := List.mem_flatMap.mp hb
      obtain ⟨v, _, rfl⟩ := List.mem_map.mp hb2
      simp only
      rw [htag q (List.mem_cons_self q ps),
        htag p2 (List.mem_cons_of_mem q hp2)]
      exact hq p2 hp2

/-- Filtering the extractor output down to one registered platform
recovers exactly that platform's matches, in text order. -/
theorem flatMap_blocks_filter_key (text : List String) (ps : List Platform)
    (hnodup : (ps.map Platform.key).Nodup) (p : Platform) (hp : p ∈ ps) :
    ((ps.flatMap fun q =>
        (text.filter q.url_re).map fun u =>
          (⟨q.key, q.name, u⟩ : SongUrl)).filter
      fun su => su.platform_key == p.key) =
      (text.filter p.url_re).map fun u => (⟨p.key, p.name, u⟩ : SongUrl) := by
  induction ps with
  | nil => exact absurd hp (List.not_mem_nil p)
  | cons q ps ih =>
    rw [List.flatMap_cons, List.filter_append]
    rw [List.map_cons, List.nodup_cons] at hnodup
    obtain ⟨hqk, hnodup'⟩ := hnodup
    rcases List.mem_cons.mp hp with rfl | hp'
    · have h1 : ((text.filter p.url_re).map fun u =>
          (⟨p.key, p.name, u⟩ : SongUrl)).filter
            (fun su => su.platform_key == p.key) =
          (text.filter p.url_re).map fun u => ⟨p.key, p.name, u⟩ := by
        apply List.filter_eq_self.mpr
        intro a ha
        obtain ⟨u, _, rfl⟩ := List.mem_map.mp ha
        simp
      have h2 : ((ps.flatMap fun q =>
          (text.filter q.url_re).map fun u =>
            (⟨q.key, q.name, u⟩ : SongUrl)).filter
            (fun su => su.platform_key == p.key)) = [] := by
        apply List.filter_eq_nil_iff.mpr
        intro a ha
        obtain ⟨p2, hp2, ha2⟩ := List.mem_flatMap.mp ha
        obtain ⟨v, _, rfl⟩ := List.mem_map.mp ha2
        simp only [beq_iff_eq]
        intro hcontra
        exact hqk (hcontra ▸ List.mem_map_of_mem Platform.key hp2)
      rw [h1, h2, List.append_nil]
    · have hpk : p.key ≠ q.key := by
        intro hcontra
        exact hqk (hcontra ▸ List.mem_map_of_mem Platform.key hp')
      have h1 : ((text.filter q.url_re).map fun u =>
          (⟨q.key, q.name, u⟩ : SongUrl)).filter
            (fun su => su.platform_key == p.key) = [] := by
        apply List.filter_eq_nil_iff.mpr
        intro a ha
        obtain ⟨u, _, rfl⟩ := List.mem_map.mp ha
        simp only [beq_iff_eq]
        exact fun hcontra => hpk hcontra.symm
      rw [h1, List.nil_append]
      exact ih hnodup' hp'

/-- Claim C1: for every text and both values of the exclusion flag,
`extract_song_urls` groups its output by platform priority (registry
order) first — whenever entry `i` has lower priority than entry `j`,
`i` comes first — and, within one retained platform, returns exactly
that platform's matches in text order; the output is a pure function
of the text and the registry. -/
theorem c1_extract_grouped (text : List String) (skip_youtube : Bool) :
    (∀ (i j : Nat) (hi : i < (extract_song_urls text skip_youtube).length)
      (hj : j < (extract_song_urls text skip_youtube).length),
      platformOrderOf
          ((extract_song_urls text skip_youtube)[i]).platform_key <
        platformOrderOf
          ((extract_song_urls text skip_youtube)[j]).platform_key →
      i < j) ∧
    (∀ p ∈ PLATFORMS, (skip_youtube && p.key == "youtube") = false →
      (extract_song_urls text skip_youtube).filter
          (fun su => su.platform_key == p.key) =
        (text.filter p.url_re).map fun u =>
          (⟨p.key, p.name, u⟩ : SongUrl)) := by
  constructor
  · have hpw := flatMap_blocks_pairwise text
      (PLATFORMS.filter (fun p => !(skip_youtube && p.key == "youtube")))
      (platforms_sorted.sublist (List.filter_sublist PLATFORMS))
      (fun p hp =>
        platforms_tag p (List.mem_of_mem_filter hp))
    have hgetElem := List.pairwise_iff_getElem.mp hpw
    intro i j hi hj hlt
    rcases Nat.lt_trichotomy i j with h | h | h
    · exact h
    · subst h
      exact absurd hlt (lt_irrefl _)
    · exact absurd (hgetElem j i hj hi h) (by
        rw [extract_song_urls] at hi hj
        exact not_le_of_lt hlt)
  · intro p hp hcond
    exact flatMap_blocks_filter_key text
      (PLATFORMS.filter (fun p => !(skip_youtube && p.key == "youtube")))
      ((platforms_keys_nodup).sublist
        ((List.filter_sublist PLATFORMS).map Platform.key))
      p (List.mem_filter.mpr ⟨hp, by simp [hcond]⟩)

/-- Demo text for the extraction witness: an Apple Music link occurs
*before* a Deezer link in the text. -/
def demoText : List String :=
  ["check", "https://music.apple.com/us/album/x",
   "https://www.deezer.com/track/1"]

/-- Witness for `c1_extract_grouped`: on `demoText` the Deezer link is
emitted first although it occurs last in the text (position 0 before
position 1 follows from the theorem since Deezer's priority 0 is below
Apple Music's 6), and filtering to Deezer returns its matches; the
concrete output is computed explicitly. -/
theorem c1_extract_grouped_witness :
    (0 : Nat) < 1 ∧
    ((extract_song_urls demoText false).filter
        (fun su => su.platform_key == deezerPlatform.key) =
      (demoText.filter deezerPlatform.url_re).map fun u =>
        (⟨deezerPlatform.key, deezerPlatform.name, u⟩ : SongUrl)) ∧
    extract_song_urls demoText false =
      [⟨"deezer", "Deezer", "https://www.deezer.com/track/1"⟩,
       ⟨"appleMusic", "Apple Music", "https://music.apple.com/us/album/x"⟩] :=
  ⟨(c1_extract_grouped demoText false).1 0 1 (by decide) (by decide)
      (by decide),
   (c1_extract_grouped demoText false).2 deezerPlatform
      (by unfold PLATFORMS; exact List.mem_cons_self _ _) (by decide),
   by decide⟩

/-! ## Odesli API schemas (`schemas.py`) and response processing

`ApiResponseSchema` requires the two dictionaries
`entitiesByUniqueId` and `linksByPlatform` (either may be empty).
Inside a song entity, `id` and `apiProvider` are required, `artistName`
defaults to `"<Unknown>"` when missing, while `title` and
`thumbnailUrl` have *no* default: a loaded entity may lack them, and
`process_api_response` accesses `song_entity['title']` unguardedly
(modelled as the `Option.mapM` failure path) but uses `.get` for the
thumbnail. -/

/-- A song entity as loaded by `SongSchema`. -/
structure SongEntity where
  id : String
  platform : String
  artist : String
  title : Option String
  thumbnail_url : Option String

/-- A platform link as loaded by `PlatformLink`. -/
structure LinkEntity where
  id : String
  url : String

/-- Deserialized `ApiResponseSchema` data (`data['songs']`,
`data['links']`), dictionaries as insertion-ordered association
lists. -/
structure ApiData where
  songs : List (String × SongEntity)
  links : List (String × LinkEntity)

/-- Raw JSON song object (fields present or absent). -/
structure RawSong where
  id : Option String
  apiProvider : Option String
  artistName : Option String
  title : Option String
  thumbnailUrl : Option String

/-- Raw JSON platform-link object. -/
structure RawLink where
  entityUniqueId : Option String
  url : Option String

/-- Raw JSON API response body. -/
structure RawResponse where
  entitiesByUniqueId : Option (List (String × RawSong))
  linksByPlatform : Option (List (String × RawLink))

/-- `SongSchema.load`: `id` and `apiProvider` required, `artistName`
defaults to `"<Unknown>"`. -/
def SongSchema_load (r : RawSong) : Option SongEntity := do
  let i ← r.id
  let p ← r.apiProvider
  pure ⟨i, p, r.artistName.getD "<Unknown>", r.title, r.thumbnailUrl⟩

/-- `PlatformLink.load`: `entityUniqueId` and `url` required. -/
def PlatformLink_load (r : RawLink) : Option LinkEntity := do
  let i ← r.entityUniqueId
  let u ← r.url
  pure ⟨i, u⟩

/-- `ApiResponseSchema.load`: both dictionaries required, every value
must validate; empty dictionaries are accepted. -/
def ApiResponseSchema_load (r : RawResponse) : Option ApiData := do
  let es ← r.entitiesByUniqueId
  let ls ← r.linksByPlatform
  let songs ← es.mapM fun kv => (SongSchema_load kv.2).map fun e => (kv.1, e)
  let links ← ls.mapM fun kv => (PlatformLink_load kv.2).map fun e => (kv.1, e)
  pure ⟨songs, links⟩

/-- The distinct values of `l` in first-occurrence order (the key
order of Python's `Counter(l)`). -/
def firstSeen (l : List String) : List String :=
  l.foldl (fun acc x => if acc.contains x then acc else acc ++ [x]) []

/-- `Counter(l).most_common(1)[0][0]`: the most frequent value, ties
broken by first occurrence; `none` models the `IndexError` raised on
an empty list. -/
def most_common (l : List String) : Option String :=
  match firstSeen l with
  | [] => none
  | h :: t =>
    some (t.foldl (fun best x =>
      if l.count x > l.count best then x else best) h)

/-- Stable insertion (before the first strictly larger key) used to
model Python's stable `sorted(..., key=lambda x: x[0])`. -/
def insertByOrder (x : Nat × String × String) :
    List (Nat × String × String) → List (Nat × String × String)
  | [] => [x]
  | y :: ys => if x.1 ≤ y.1 then x :: y :: ys else y :: insertByOrder x ys

/-- Stable sort by the order component. -/
def sortByOrder : List (Nat × String × String) →
    List (Nat × String × String)
  | [] => []
  | x :: xs => insertByOrder x (sortByOrder xs)

/-- `OdesliBot._filter_platform_urls`: keep only registered platforms
(in registry iteration order), then reorder by platform `order` and
build the display-name → URL dictionary. -/
def filter_platform_urls (platform_urls : List (String × String)) :
    List (String × String) :=
  let urls := PLATFORMS.filterMap fun p =>
    (platform_urls.find? fun kv => kv.1 == p.key).map fun kv =>
      (p.order, p.name, kv.2)
  (sortByOrder urls).map fun x => (x.2.1, x.2.2)

/-- `OdesliBot.process_api_response`: collect the entity ids, pick the
first truthy thumbnail, filter/reorder the platform links, and choose
the most common title and artist.  Returns `none` where the Python
code raises: a `KeyError` on a missing `title`, or an `IndexError` in
`most_common(1)[0]` when there are no song entities. -/
def process_api_response (data : ApiData) (url : String) :
    Option SongInfo :=
  let entities := data.songs.map Prod.snd
  let ids : Finset String := entities.foldl (fun s e => insert e.id s) ∅
  let thumbnail_url :=
    (entities.filterMap fun e =>
      e.thumbnail_url.bind fun t => if t = "" then none else some t).head?
  let platform_urls :=
    filter_platform_urls (data.links.map fun kv => (kv.1, kv.2.url))
  match entities.mapM SongEntity.title with
  | none => none
  | some titles =>
    let artists := entities.map SongEntity.artist
    match most_common titles, most_common artists with
    | some title, some artist =>
      some ⟨ids, some title, some artist, some platform_urls,
        thumbnail_url, {url}⟩
    | _, _ => none

/-! ## The resolver client (`OdesliBot.find_song_by_url`)

The retry loop is modelled one iteration at a time: the function
receives the cache lookup result for the normalized URL and the HTTP
response of the iteration, and produces the iteration's outcome.
`FetchResult.throttled` is the 429 branch (gate closed, retry);
`FetchResult.crashed` marks the uncaught Python exceptions of
`process_api_response` (claim C10); every other branch mirrors the
source: non-success statuses and invalid payloads *raise* `APIError`,
only a cache hit or a processed 200 response returns a `SongInfo`. -/

/-- `APIError` from `bot.py`. -/
structure APIError where
  status_code : Option Nat
  message : String

instance : DecidableEq APIError := fun a b =>
  decidable_of_iff (a.status_code = b.status_code ∧ a.message = b.message)
    (by cases a; cases b; simp)

/-- One HTTP response of the Odesli service: status, body text, and
the parsed JSON payload (meaningful only for status 200). -/
structure HttpResp where
  status : Nat
  body : String
  json : RawResponse

/-- Outcome of one iteration of the `find_song_by_url` loop. -/
inductive FetchResult where
  | found (song_info : SongInfo) (networkUsed : Bool)
  | apiError (e : APIError)
  | throttled
  | crashed

/-- Did the iteration issue a network request?  (Everything except a
cache hit does.) -/
def FetchResult.networkUsed : FetchResult → Bool
  | .found _ b => b
  | _ => true

/-- Did the iteration return a `SongInfo`? -/
def FetchResult.isFound : FetchResult → Bool
  | .found _ _ => true
  | _ => false

/-- `OdesliBot.find_song_by_url`, one loop iteration: a cache hit
returns the cached snapshot with `urls_in_text` replaced by the raw
URL and no network request; otherwise the response is fetched and
dispatched on its status (429 → throttle/retry, other non-200 →
`raise APIError(status, body)`, invalid payload →
`raise APIError(None, 'Invalid data')`, else process and return). -/
def find_song_by_url (cache : Option SongInfo) (resp : HttpResp)
    (song_url : SongUrl) : FetchResult :=
  match cache with
  | some cached =>
    .found ⟨cached.ids, cached.title, cached.artist, cached.urls,
      cached.thumbnail_url, {song_url.url}⟩ false
  | none =>
    if resp.status ≠ 200 then
      if resp.status = 429 then .throttled
      else .apiError ⟨some resp.status, resp.body⟩
    else
      match ApiResponseSchema_load resp.json with
      | none => .apiError ⟨none, "Invalid data"⟩
      | some data =>
        match process_api_response data song_url.url with
        | some si => .found si true
        | none => .crashed

/-- Cache contents after an iteration: only a successfully processed
network response is written (`await self.cache.set(...)` sits on the
success path only; failures are never cached). -/
def cacheAfter (cache : Option SongInfo) : FetchResult → Option SongInfo
  | .found si true => some si
  | _ => cache

/-- Number of network requests issued when the same (normalized) URL
is resolved twice in sequence, starting from an empty cache and with
per-attempt responses `r1` and `r2`. -/
def networkCallsTwice (r1 r2 : HttpResp) (u : SongUrl) : Nat :=
  let first := find_song_by_url none r1 u
  let second := find_song_by_url (cacheAfter none first) r2 u
  (if first.networkUsed then 1 else 0) +
    (if second.networkUsed then 1 else 0)

/-! ## `OdesliBot._find_songs` and `handle_message`

`_find_songs` is modelled from the point where `asyncio.gather` has
delivered, for each extracted URL, either a `SongInfo` or a raised
`APIError`; the zipped list of URLs and outcomes is the model input.
`handle_message`'s reply decision is modelled on top of it. -/

/-- The `song_infos` list built by `_find_songs`: a raised error is
replaced by the empty `SongInfo` carrying the original URL. -/
def gatheredSongInfos
    (results : List (SongUrl × Except APIError SongInfo)) :
    List SongInfo :=
  results.map fun r =>
    match r.2 with
    | .ok si => si
    | .error _ => emptySongInfo r.1.url

/-- The `exceptions` list collected by `_find_songs`. -/
def gatheredExceptions
    (results : List (SongUrl × Except APIError SongInfo)) :
    List APIError :=
  results.filterMap fun r =>
    match r.2 with
    | .ok _ => none
    | .error e => some e

/-- `OdesliBot._find_songs` after the gather: raise
`SongNotFoundError` (the `Except.error`) iff no gathered `SongInfo`
is truthy and every collected exception has status 404; otherwise
return the merged list.  An empty URL list returns early. -/
def find_songs (results : List (SongUrl × Except APIError SongInfo)) :
    Except Unit (List SongInfo) :=
  if results.isEmpty then .ok []
  else
    let song_infos := gatheredSongInfos results
    let exceptions := gatheredExceptions results
    if !(song_infos.any SongInfo.truthy) &&
        exceptions.all (fun e => e.status_code == some 404) then
      .error ()
    else
      .ok (merge_same_songs song_infos)

/-- `OdesliBot.SKIP_MARK`. -/
def SKIP_MARK : String := "!skip"

/-- The fixed "song not found" reply text of `handle_message`. -/
def notFoundText : String :=
  "Sorry, Odesli couldn" ++ String.singleton (Char.ofNat 39) ++
    "t find that song"

/-- What `handle_message` sends back. -/
inductive ReplyAction where
  | noReply
  | notFound (text : String)
  | reply (song_infos : List SongInfo)

/-- The reply decision of `OdesliBot.handle_message`: skip-marked
messages are ignored; a `SongNotFoundError` is answered with the
fixed text; no reply when no song was found or every song info with a
truthy URL dictionary has exactly one URL; otherwise reply with the
merged song infos. -/
def handle_message (text : String)
    (outcome : Except Unit (List SongInfo)) : ReplyAction :=
  if containsStr text SKIP_MARK then .noReply
  else
    match outcome with
    | .error () => .notFound notFoundText
    | .ok song_infos =>
      if !(song_infos.any SongInfo.truthy) ||
          song_infos.all (fun si =>
            match si.urls with
            | some u => u.isEmpty || u.length == 1
            | none => true) then
        .noReply
      else
        .reply song_infos

instance : DecidableEq FetchResult := fun a b =>
  match a, b with
  | .found s1 b1, .found s2 b2 =>
    decidable_of_iff (s1 = s2 ∧ b1 = b2) (by simp)
  | .apiError e1, .apiError e2 => decidable_of_iff (e1 = e2) (by simp)
  | .throttled, .throttled => isTrue rfl
  | .crashed, .crashed => isTrue rfl
  | .found _ _, .apiError _ => isFalse nofun
  | .found _ _, .throttled => isFalse nofun
  | .found _ _, .crashed => isFalse nofun
  | .apiError _, .found _ _ => isFalse nofun
  | .apiError _, .throttled => isFalse nofun
  | .apiError _, .crashed => isFalse nofun
  | .throttled, .found _ _ => isFalse nofun
  | .throttled, .apiError _ => isFalse nofun
  | .throttled, .crashed => isFalse nofun
  | .crashed, .found _ _ => isFalse nofun
  | .crashed, .apiError _ => isFalse nofun
  | .crashed, .throttled => isFalse nofun

/-- A resolver input used in concrete counterexamples/witnesses. -/
def demoSongUrl : SongUrl :=
  ⟨"deezer", "Deezer", "https://www.deezer.com/track/1"⟩

/-- A schema-valid payload with empty dictionaries. -/
def emptyRawResponse : RawResponse := ⟨some [], some []⟩

/-- An HTTP 404 response. -/
def notFound404 : HttpResp := ⟨404, "Not found", emptyRawResponse⟩

/-- Claim C4 (counterexample): on an HTTP 404 (with an empty cache)
`find_song_by_url` does not return an empty `SongInfo` — it raises
`APIError` with the status attached, as the concrete evaluation
shows. -/
theorem c4_counterexample :
    find_song_by_url none notFound404 demoSongUrl =
        .apiError ⟨some 404, "Not found"⟩ ∧
    (find_song_by_url none notFound404 demoSongUrl).isFound = false :=
  ⟨rfl, rfl⟩

/-- Claim C4 (amended): `find_song_by_url` *raises* `APIError` on
every expected failure — with the response status for any final
non-success status (404 included) and with no status for a payload
failing schema validation — and it is its caller `_find_songs` that
converts each raised error into the empty `SongInfo` carrying only
the original URL. -/
theorem c4_amended :
    (∀ (st : Nat) (body : String) (js : RawResponse) (u : SongUrl),
      st ≠ 200 → st ≠ 429 →
      find_song_by_url none ⟨st, body, js⟩ u =
        .apiError ⟨some st, body⟩) ∧
    (∀ (body : String) (js : RawResponse) (u : SongUrl),
      ApiResponseSchema_load js = none →
      find_song_by_url none ⟨200, body, js⟩ u =
        .apiError ⟨none, "Invalid data"⟩) ∧
    (∀ (su : SongUrl) (e : APIError)
      (rest : List (SongUrl × Except APIError SongInfo)),
      gatheredSongInfos ((su, .error e) :: rest) =
        emptySongInfo su.url :: gatheredSongInfos rest) := by
  refine ⟨?_, ?_, ?_⟩
  · intro st body js u h200 h429
    simp [find_song_by_url, h200, h429]
  · intro body js u hload
    simp [find_song_by_url, hload]
  · intro su e rest
    rfl

/-- Witness for `c4_amended` at a concrete 500 response. -/
theorem c4_amended_witness :
    find_song_by_url none ⟨500, "Server error", emptyRawResponse⟩
        demoSongUrl = .apiError ⟨some 500, "Server error"⟩ :=
  c4_amended.1 500 "Server error" emptyRawResponse demoSongUrl
    (by decide) (by decide)

/-- Claim C5: with at least one extracted link, `_find_songs` raises
`SongNotFoundError` iff every entry of the gathered list is an empty
result and every recorded failure has status 404; `handle_message`
answers that exception with the fixed "not found" text (for any
message without the skip mark). -/
theorem c5_not_found_iff
    (results : List (SongUrl × Except APIError SongInfo))
    (hne : results ≠ []) :
    (find_songs results = .error () ↔
      ((∀ si ∈ gatheredSongInfos results, si.ids = ∅) ∧
        ∀ e ∈ gatheredExceptions results, e.status_code = some 404)) ∧
    (∀ text, containsStr text SKIP_MARK = false →
      handle_message text (.error ()) = .notFound notFoundText) := by
  constructor
  · have hempty : results.isEmpty = false := by
      simpa [List.isEmpty_iff] using hne
    by_cases hc : (!((gatheredSongInfos results).any SongInfo.truthy) &&
        (gatheredExceptions results).all
          (fun e => e.status_code == some 404)) = true
    · rw [Bool.and_eq_true, Bool.not_eq_true'] at hc
      obtain ⟨hany, hall⟩ := hc
      constructor
      · intro _
        constructor
        · intro si hsi
          have := List.any_eq_false.mp hany si hsi
          simpa [SongInfo.truthy] using this
        · intro e he
          have := List.all_eq_true.mp hall e he
          simpa using this
      · intro _
        simp only [find_songs, hempty, Bool.false_eq_true, if_false,
          Bool.and_eq_true, Bool.not_eq_true']
        rw [if_pos ⟨hany, hall⟩]
    · constructor
      · intro habs
        simp only [find_songs, hempty, Bool.false_eq_true, if_false,
          if_neg hc] at habs
        exact Except.noConfusion habs
      · intro ⟨h1, h2⟩
        exfalso
        apply hc
        rw [Bool.and_eq_true, Bool.not_eq_true']
        constructor
        · rw [List.any_eq_false]
          intro si hsi
          simpa [SongInfo.truthy] using h1 si hsi
        · rw [List.all_eq_true]
          intro e he
          simpa using h2 e he
  · intro text hskip
    simp [handle_message, hskip]

/-- Witness for `c5_not_found_iff`: one 404-failed link makes
`_find_songs` raise, and the handler replies with the fixed text. -/
theorem c5_not_found_iff_witness :
    find_songs [(demoSongUrl, .error ⟨some 404, "Not found"⟩)] =
        .error () ∧
    handle_message "check https://www.deezer.com/track/1" (.error ()) =
      .notFound notFoundText :=
  ⟨(c5_not_found_iff [(demoSongUrl, .error ⟨some 404, "Not found"⟩)]
      (List.cons_ne_nil _ _)).1.mpr ⟨by decide, by decide⟩,
   (c5_not_found_iff [(demoSongUrl, .error ⟨some 404, "Not found"⟩)]
      (List.cons_ne_nil _ _)).2 "check https://www.deezer.com/track/1"
     (by decide)⟩

/-- Number of platform URLs carried by a `SongInfo` (0 when the
dictionary is absent). -/
def urlCount (si : SongInfo) : Nat := (si.urls.getD []).length

/-- Claim C7: when every surviving merged entry carries at most one
platform URL, `handle_message` sends no reply. -/
theorem c7_no_reply_when_nothing_new (text : String)
    (song_infos : List SongInfo)
    (h : ∀ si ∈ song_infos, urlCount si ≤ 1) :
    handle_message text (.ok song_infos) = .noReply := by
  have hall : song_infos.all (fun si =>
      match si.urls with
      | some u => u.isEmpty || u.length == 1
      | none => true) = true := by
    rw [List.all_eq_true]
    intro si hsi
    have hcount := h si hsi
    match husi : si.urls with
    | none => rfl
    | some u =>
      match u with
      | [] => rfl
      | [a] => rfl
      | a :: b :: t =>
        exfalso
        rw [urlCount, husi] at hcount
        simp at hcount
  by_cases hskip : containsStr text SKIP_MARK = true
  · simp [handle_message, hskip]
  · simp [handle_message, hskip, hall]

/-- Witness for `c7_no_reply_when_nothing_new`: a single resolved song
carrying only the original platform URL produces no reply. -/
theorem c7_no_reply_witness :
    handle_message "check https://www.deezer.com/track/1"
        (.ok [⟨{"id1"}, some "Title", some "Artist",
          some [("Deezer", "https://www.deezer.com/track/1")], none,
          {"https://www.deezer.com/track/1"}⟩]) = .noReply :=
  c7_no_reply_when_nothing_new "check https://www.deezer.com/track/1"
    [⟨{"id1"}, some "Title", some "Artist",
      some [("Deezer", "https://www.deezer.com/track/1")], none,
      {"https://www.deezer.com/track/1"}⟩]
    (by decide)

/-- Claim C8 (counterexample): failures are not cached, so resolving
the same URL twice when the service answers 404 both times issues two
network requests, not at most one. -/
theorem c8_counterexample :
    networkCallsTwice notFound404 notFound404 demoSongUrl = 2 ∧
    ¬ networkCallsTwice notFound404 notFound404 demoSongUrl ≤ 1 :=
  ⟨rfl, by decide⟩

/-- Claim C8 (amended): a cache hit returns immediately with the
cached snapshot's ids, title, artist, thumbnail and platform URLs,
`sourceUrls` replaced by the raw URL, and no network request; hence
two sequential resolutions of the same normalized URL issue exactly
one network call *provided the first resolution succeeds* (failures
are never cached and are retried over the network). -/
theorem c8_amended :
    (∀ (c : SongInfo) (resp : HttpResp) (u : SongUrl),
      find_song_by_url (some c) resp u =
        .found ⟨c.ids, c.title, c.artist, c.urls, c.thumbnail_url,
          {u.url}⟩ false) ∧
    (∀ (r1 r2 : HttpResp) (u : SongUrl) (si : SongInfo),
      find_song_by_url none r1 u = .found si true →
      networkCallsTwice r1 r2 u = 1) := by
  constructor
  · intro c resp u
    rfl
  · intro r1 r2 u si h
    unfold networkCallsTwice
    rw [h]
    rfl

/-- A schema-valid success payload: one song entity and one Deezer
link. -/
def demoRawSuccess : RawResponse :=
  ⟨some [("E1", ⟨some "id1", some "deezer", some "Artist",
    some "Title", none⟩)],
   some [("deezer", ⟨some "E1", some "https://www.deezer.com/track/1"⟩)]⟩

/-- Witness for `c8_amended`: after a successful first resolution, the
second resolution of the same URL hits the cache, so only one network
call is made in total. -/
theorem c8_amended_witness :
    networkCallsTwice ⟨200, "", demoRawSuccess⟩ notFound404
        demoSongUrl = 1 :=
  c8_amended.2 ⟨200, "", demoRawSuccess⟩ notFound404 demoSongUrl
    ⟨{"id1"}, some "Title", some "Artist",
      some [("Deezer", "https://www.deezer.com/track/1")], none,
      {"https://www.deezer.com/track/1"}⟩ (by decide)

/-- Claim C10: the response schema accepts a payload whose
`entitiesByUniqueId` dictionary is empty, and on such data
`process_api_response` produces no `SongInfo` (the most-common-title
selection fails on an empty entity list, modelled by `none`), whatever
the links and the source URL are. -/
theorem c10_empty_entities_no_songinfo :
    ApiResponseSchema_load ⟨some [], some []⟩ =
        some ⟨([] : List (String × SongEntity)),
          ([] : List (String × LinkEntity))⟩ ∧
    ∀ (links : List (String × LinkEntity)) (url : String),
      process_api_response ⟨[], links⟩ url = none := by
  constructor
  · rfl
  · intro links url
    rfl

/-- A schema-valid response whose only link is for an unregistered
platform (`amazonMusic` is not in the `PLATFORMS` registry). -/
def c6Data : ApiData :=
  ⟨[("E1", ⟨"id1", "amazonMusic", "Artist6", some "Title6", none⟩)],
   [("amazonMusic", ⟨"E1", "https://music.amazon.example/t"⟩)]⟩

/-- Claim C6 (counterexample): resolution can produce a `SongInfo`
with nonempty `ids` and an *empty* platform-URL dictionary — when the
service's links cover no registered platform — so "`ids` empty ⇔
`platformUrls` empty/absent" fails. -/
theorem c6_counterexample :
    process_api_response c6Data "https://src6.example" =
      some ⟨{"id1"}, some "Title6", some "Artist6", some [], none,
        {"https://src6.example"}⟩ ∧
    ¬ (({"id1"} : Finset String) = ∅ ↔
        (some ([] : List (String × String)) = none ∨
          some ([] : List (String × String)) = some [])) :=
  ⟨by decide, by decide⟩

/-- The id-collecting fold of `process_api_response` only grows. -/
theorem foldl_insert_ids_subset (l : List SongEntity)
    (init : Finset String) :
    init ⊆ l.foldl (fun s e => insert e.id s) init := by
  induction l generalizing init with
  | nil => exact Finset.Subset.refl init
  | cons e rest ih =>
    exact Finset.Subset.trans (Finset.subset_insert e.id init) (ih _)

/-- An inner merge step preserves "empty ids implies absent urls" for
every entry, as long as the captured id set is nonempty. -/
theorem mergeInnerStep_preserves_inv (idx1 : Nat) (ids1 : Finset String)
    (st : List SongInfo × Finset Nat) (idx2 : Nat)
    (hids1 : ids1.Nonempty)
    (h : ∀ si ∈ st.1, si.ids = ∅ → si.urls = none) :
    ∀ si ∈ (mergeInnerStep idx1 ids1 st idx2).1, si.ids = ∅ →
      si.urls = none := by
  by_cases hc : idx2 = idx1 ∨ idx2 ∈ st.2 ∨
      (st.1.getD idx2 default).ids = ∅
  · simpa only [mergeInnerStep, if_pos hc] using h
  · by_cases hint : (ids1 ∩ (st.1.getD idx2 default).ids).Nonempty
    · simp only [mergeInnerStep, if_neg hc, if_pos hint]
      intro si hsi hempty
      rcases List.mem_or_eq_of_mem_set hsi with hmem | rfl
      · exact h si hmem hempty
      · exfalso
        simp only [Finset.union_eq_empty] at hempty
        exact Finset.not_nonempty_empty (hempty.1 ▸ hids1)
    · simpa only [mergeInnerStep, if_neg hc, if_neg hint] using h

/-- The inner merge fold preserves the invariant. -/
theorem mergeInnerFold_preserves_inv (idx1 : Nat) (ids1 : Finset String)
    (hids1 : ids1.Nonempty) (idxs : List Nat) :
    ∀ (st : List SongInfo × Finset Nat),
    (∀ si ∈ st.1, si.ids = ∅ → si.urls = none) →
    ∀ si ∈ (idxs.foldl (mergeInnerStep idx1 ids1) st).1, si.ids = ∅ →
      si.urls = none := by
  induction idxs with
  | nil => exact fun st h => h
  | cons idx2 idxs ih =>
    intro st h
    exact ih _ (mergeInnerStep_preserves_inv idx1 ids1 st idx2 hids1 h)

/-- The outer merge fold preserves the invariant. -/
theorem mergeOuterFold_preserves_inv (idxs : List Nat) :
    ∀ (st : List SongInfo × Finset Nat),
    (∀ si ∈ st.1, si.ids = ∅ → si.urls = none) →
    ∀ si ∈ (idxs.foldl mergeOuterStep st).1, si.ids = ∅ →
      si.urls = none := by
  induction idxs with
  | nil => exact fun st h => h
  | cons idx1 idxs ih =>
    intro st h
    apply ih
    by_cases hempty : (st.1.getD idx1 default).ids = ∅
    · simpa only [mergeOuterStep, if_pos hempty] using h
    · by_cases hmem : idx1 ∈ st.2
      · simpa only [mergeOuterStep, if_neg hempty, if_pos hmem] using h
      · have hne : (st.1.getD idx1 default).ids.Nonempty :=
          Finset.nonempty_iff_ne_empty.mpr hempty
        simpa only [mergeOuterStep, if_neg hempty, if_neg hmem] using
          mergeInnerFold_preserves_inv idx1 _ hne
            (List.range st.1.length) st h

/-- Claim C6 (amended): the invariant holds in one direction only — an
empty-`ids` record always has an absent URL dictionary (the failure
substitute carries `ids = ∅` and `urls = None`, and merging preserves
this), and successful resolution always yields nonempty `ids` — but a
successful resolution may carry an *empty* platform-URL dictionary
when the service returned links only for unregistered platforms
(`c6_counterexample`). -/
theorem c6_amended :
    (∀ url, (emptySongInfo url).ids = ∅ ∧
      (emptySongInfo url).urls = none) ∧
    (∀ (data : ApiData) (url : String) (si : SongInfo),
      process_api_response data url = some si → si.ids ≠ ∅) ∧
    (∀ song_infos : List SongInfo,
      (∀ si ∈ song_infos, si.ids = ∅ → si.urls = none) →
      ∀ si ∈ merge_same_songs song_infos, si.ids = ∅ →
        si.urls = none) := by
  refine ⟨fun url => ⟨rfl, rfl⟩, ?_, ?_⟩
  · intro data url si h
    obtain ⟨songs, links⟩ := data
    cases songs with
    | nil =>
      rw [show process_api_response ⟨[], links⟩ url = none from rfl] at h
      exact Option.noConfusion h
    | cons e rest =>
      simp only [process_api_response] at h
      split at h
      · exact Option.noConfusion h
      · split at h
        · have hsi := Option.some.inj h
          subst hsi
          simp only [List.map_cons, List.foldl_cons]
          intro habs
          have hsub := foldl_insert_ids_subset
            (rest.map Prod.snd) (insert e.2.id ∅)
          rw [habs] at hsub
          exact absurd (hsub (Finset.mem_insert_self _ _))
            (Finset.not_mem_empty _)
        · exact Option.noConfusion h
  · intro song_infos h si hsi hempty
    unfold merge_same_songs at hsi
    obtain ⟨idx, _, hf⟩ := List.mem_filterMap.mp hsi
    by_cases hmem : idx ∈ ((List.range song_infos.length).foldl
        mergeOuterStep (song_infos, ∅)).2
    · rw [if_pos hmem] at hf
      exact Option.noConfusion hf
    · rw [if_neg hmem] at hf
      have hsome := Option.some.inj hf
      by_cases hlt : idx < ((List.range song_infos.length).foldl
          mergeOuterStep (song_infos, ∅)).1.length
      · have hin : si ∈ ((List.range song_infos.length).foldl
            mergeOuterStep (song_infos, ∅)).1 := by
          rw [← hsome, List.getD_eq_getElem _ _ hlt]
          exact List.getElem_mem hlt
        exact mergeOuterFold_preserves_inv (List.range song_infos.length)
          (song_infos, ∅) h si hin hempty
      · rw [List.getD_eq_default _ _ (Nat.le_of_not_lt hlt)] at hsome
        rw [← hsome]
        rfl

/-- Witness for `c6_amended`: the failure substitute has empty ids and
no URLs; the `c6Data` resolution has nonempty ids; a merged failure
substitute still has no URL dictionary. -/
theorem c6_amended_witness :
    ((emptySongInfo "https://w6.example").urls = none) ∧
    (⟨{"id1"}, some "Title6", some "Artist6", some [], none,
      {"https://src6.example"}⟩ : SongInfo).ids ≠ ∅ ∧
    (emptySongInfo "https://w6b.example").urls = none :=
  ⟨(c6_amended.1 "https://w6.example").2,
   c6_amended.2.1 c6Data "https://src6.example" _ (by decide),
   c6_amended.2.2 [emptySongInfo "https://w6b.example"] (by decide)
     (emptySongInfo "https://w6b.example") (by decide) (by decide)⟩

/-! ## URL normalization (`OdesliBot.normalize_url`)

`normalize_url` is `urlparse` → `parse_qs(..., keep_blank_values=True)`
→ drop `utm_`-prefixed parameters → `urlencode(..., doseq=True)` →
`urlunparse`.  The CPython (3.11) semantics of those library functions
is modelled over `List Char`, byte-oriented: percent escapes encode
and decode one byte (code point below 256); this matches Python
exactly for ASCII URLs (URLs are ASCII by standard), while Python
would pass non-ASCII code points through UTF-8.  The main theorems
are stated for strings of sub-256 code points.

Modelled behaviour of the library pipeline:
* `urlsplit` first strips leading C0-control/space characters, then
  removes tab/CR/LF anywhere, extracts a scheme (first
  `:` with a nonempty all-`scheme_chars` prefix led by an ASCII
  letter, lowercased), a netloc (after `//`, up to `/?#`), then the
  fragment (first `#`) and the query (first `?`); `urlparse` then
  splits `;params` off the last path segment.
* `parse_qsl` splits on `&`, drops empty chunks, splits each chunk at
  the first `=` (a chunk without `=` gets an empty value under
  `keep_blank_values=True`), then decodes `+` to space and `%XX`
  escapes (invalid escapes stay literal).
* `parse_qs` groups values by key, keys in first-occurrence order.
* `urlencode(..., doseq=True)` emits `quote_plus(k)=quote_plus(v)`
  joined by `&`; `quote_plus` keeps letters, digits and `_.-~`, turns
  space into `+` and anything else into uppercase `%XX`.
* `urlunparse` reassembles, inserting the `//`+netloc block when a
  netloc is present, or when the scheme is in `uses_netloc` and the
  path does not already start with `//`; empty query and fragment
  are omitted.  Consequently a netloc-less path starting with
  several slashes loses one layer of `//` per pass — the source of
  non-idempotence. -/

/-- Tab, CR or LF — removed from URLs by `urlsplit`. -/
def isUnsafeChar (c : Char) : Bool :=
  c.toNat = 9 || c.toNat = 13 || c.toNat = 10

/-- `url.lstrip(_WHATWG_C0_CONTROL_OR_SPACE)`: drop leading C0
controls and spaces (codepoints up to 0x20). -/
def lstripControl (l : List Char) : List Char :=
  l.dropWhile fun c => c.toNat ≤ 32

/-- ASCII uppercase letter. -/
def isAsciiUpper (c : Char) : Bool :=
  65 ≤ c.toNat && c.toNat ≤ 90

/-- ASCII letter. -/
def isAsciiAlphaChar (c : Char) : Bool :=
  isAsciiUpper c || (97 ≤ c.toNat && c.toNat ≤ 122)

/-- ASCII digit. -/
def isDigitChar (c : Char) : Bool :=
  48 ≤ c.toNat && c.toNat ≤ 57

/-- `scheme_chars` of `urllib.parse`: letters, digits and `+-.`. -/
def isSchemeChar (c : Char) : Bool :=
  isAsciiAlphaChar c || isDigitChar c ||
    c.toNat = 43 || c.toNat = 45 || c.toNat = 46

/-- ASCII lowercasing (`str.lower` restricted to ASCII letters). -/
def lowerAscii (c : Char) : Char :=
  if isAsciiUpper c then Char.ofNat (c.toNat + 32) else c

/-- A character ending the netloc: `/`, `?` or `#`. -/
def isNetlocEnd (c : Char) : Bool :=
  c.toNat = 47 || c.toNat = 63 || c.toNat = 35

/-- `urllib.parse`'s always-safe characters: letters, digits, `_.-~`. -/
def isAlwaysSafe (c : Char) : Bool :=
  isAsciiAlphaChar c || isDigitChar c ||
    c.toNat = 95 || c.toNat = 46 || c.toNat = 45 || c.toNat = 126

/-- Split at the first occurrence of `c` (which is dropped):
`some (before, after)`, or `none` when `c` does not occur. -/
def breakOnFirst (c : Char) : List Char → Option (List Char × List Char)
  | [] => none
  | a :: rest =>
    if a = c then some ([], rest)
    else
      match breakOnFirst c rest with
      | none => none
      | some (pre, post) => some (a :: pre, post)

/-- Split at the first occurrence of `c`, returning the whole list
and an empty remainder when `c` does not occur (like
`url.split(c, 1)` guarded by `if c in url`). -/
def splitOnFirst (c : Char) (l : List Char) : List Char × List Char :=
  match breakOnFirst c l with
  | none => (l, [])
  | some (pre, post) => (pre, post)

/-- `url = pre ++ '/' :: post` with no `/` in `post` (decomposition at
the last slash), or `none` if there is no slash. -/
def splitLastSlash : List Char → Option (List Char × List Char)
  | [] => none
  | c :: rest =>
    match splitLastSlash rest with
    | some (pre, post) => some (c :: pre, post)
    | none => if c = '/' then some ([], rest) else none

/-- Remove tab/CR/LF (`_UNSAFE_URL_BYTES_TO_REMOVE`). -/
def removeUnsafe (l : List Char) : List Char :=
  l.filter fun c => !isUnsafeChar c

/-- Scheme extraction of `urlsplit`: the text before the first `:`
must be nonempty, start with an ASCII letter and consist of scheme
characters; the scheme is lowercased.  Otherwise no scheme. -/
def splitScheme (l : List Char) : List Char × List Char :=
  match breakOnFirst ':' l with
  | none => ([], l)
  | some (pre, post) =>
    match pre with
    | [] => ([], l)
    | c0 :: crest =>
      if isAsciiAlphaChar c0 && crest.all isSchemeChar then
        ((c0 :: crest).map lowerAscii, post)
      else ([], l)

/-- Netloc extraction of `urlsplit`: after a leading `//`, up to the
first `/`, `?` or `#`. -/
def splitNetloc (l : List Char) : List Char × List Char :=
  if l.take 2 = ['/', '/'] then
    ((l.drop 2).takeWhile (fun c => !isNetlocEnd c),
      (l.drop 2).dropWhile (fun c => !isNetlocEnd c))
  else ([], l)

/-- `_splitparams` of `urlparse`: split `;params` off the last path
segment (after the last `/` when there is one). -/
def splitParams (l : List Char) : List Char × List Char :=
  if l.contains ';' then
    match splitLastSlash l with
    | some (pre, post) =>
      match breakOnFirst ';' post with
      | some (p1, p2) => (pre ++ '/' :: p1, p2)
      | none => (l, [])
    | none =>
      match breakOnFirst ';' l with
      | some (p1, p2) => (p1, p2)
      | none => (l, [])
  else (l, [])

/-- The parsed components (`scheme, netloc, path, params, query,
fragment`). -/
structure UrlParts where
  scheme : List Char
  netloc : List Char
  path : List Char
  params : List Char
  query : List Char
  fragment : List Char

/-- `urlparse` (CPython 3.11 `urlsplit` + params split; the IPv6
bracket and netloc validation paths, which raise `ValueError`, are
outside the modelled subset). -/
def urlparseChars (l : List Char) : UrlParts :=
  let l0 := removeUnsafe (lstripControl l)
  let s := splitScheme l0
  let n := splitNetloc s.2
  let f := splitOnFirst '#' n.2
  let q := splitOnFirst '?' f.1
  let p := splitParams q.1
  ⟨s.1, n.1, p.1, p.2, q.2, f.2⟩

/-- Split on `&` (Python `str.split('&')`): empty chunks are kept
here and skipped by the pair parser. -/
def splitOnAmpAux : List Char → List Char → List (List Char)
  | [], acc => [acc.reverse]
  | c :: rest, acc =>
    if c = '&' then acc.reverse :: splitOnAmpAux rest []
    else splitOnAmpAux rest (c :: acc)

/-- `qs.split('&')`. -/
def splitOnAmp (l : List Char) : List (List Char) :=
  splitOnAmpAux l []

/-- Value of a hexadecimal digit. -/
def hexVal (c : Char) : Option Nat :=
  if 48 ≤ c.toNat ∧ c.toNat ≤ 57 then some (c.toNat - 48)
  else if 97 ≤ c.toNat ∧ c.toNat ≤ 102 then some (c.toNat - 87)
  else if 65 ≤ c.toNat ∧ c.toNat ≤ 70 then some (c.toNat - 55)
  else none

/-- Percent-decoding (`urllib.parse.unquote`, byte-oriented): a `%`
followed by two hex digits becomes that byte; an invalid escape stays
literal. -/
def percentDecode : List Char → List Char
  | [] => []
  | [c] => [c]
  | [c, a] => [c, a]
  | c :: a :: b :: rest =>
    if c.toNat = 37 then
      match hexVal a, hexVal b with
      | some ha, some hb =>
        Char.ofNat (16 * ha + hb) :: percentDecode rest
      | _, _ => c :: percentDecode (a :: b :: rest)
    else c :: percentDecode (a :: b :: rest)

/-- `+` decodes to space before percent-decoding (`unquote_plus`). -/
def plusReplace (l : List Char) : List Char :=
  l.map fun c => if c = '+' then ' ' else c

/-- One `name=value` chunk of `parse_qsl` with
`keep_blank_values=True`: empty chunks are dropped, a chunk without
`=` gets an empty value, then both sides are `unquote_plus`-decoded. -/
def parsePair (pair : List Char) : Option (List Char × List Char) :=
  if pair.isEmpty then none
  else
    match breakOnFirst '=' pair with
    | some nv =>
      some (percentDecode (plusReplace nv.1),
        percentDecode (plusReplace nv.2))
    | none => some (percentDecode (plusReplace pair), [])

/-- `parse_qsl(qs, keep_blank_values=True)`. -/
def parse_qsl (qs : List Char) : List (List Char × List Char) :=
  (splitOnAmp qs).filterMap parsePair

/-- One step of `parse_qs`'s grouping: append the value under its key
if the key is known, else append a new key. -/
def groupStep (acc : List (List Char × List (List Char)))
    (p : List Char × List Char) :
    List (List Char × List (List Char)) :=
  match acc.find? (fun kv => kv.1 == p.1) with
  | some _ =>
    acc.map fun kv => if kv.1 == p.1 then (kv.1, kv.2 ++ [p.2]) else kv
  | none => acc ++ [(p.1, [p.2])]

/-- `parse_qs` grouping: dictionary keyed in first-occurrence order,
values in occurrence order. -/
def groupPairs (ps : List (List Char × List Char)) :
    List (List Char × List (List Char)) :=
  ps.foldl groupStep []

/-- Does this (decoded) parameter name start with `utm_`? -/
def utmTest (k : List Char) : Bool :=
  listPrefixTest "utm_".toList k

/-- Drop the `utm_`-prefixed parameters. -/
def filterUtm (g : List (List Char × List (List Char))) :
    List (List Char × List (List Char)) :=
  g.filter fun kv => !utmTest kv.1

/-- Uppercase hexadecimal digit of a value below 16. -/
def hexDigit (n : Nat) : Char :=
  if n < 10 then Char.ofNat (48 + n) else Char.ofNat (55 + n)

/-- `quote_plus` on one character (byte-oriented): safe characters
stay, space becomes `+`, anything else becomes `%XX`. -/
def quotePlusChar (c : Char) : List Char :=
  if isAlwaysSafe c then [c]
  else if c = ' ' then ['+']
  else ['%', hexDigit (c.toNat % 256 / 16), hexDigit (c.toNat % 256 % 16)]

/-- `quote_plus`. -/
def quotePlus (l : List Char) : List Char :=
  l.flatMap quotePlusChar

/-- Join chunks with `&`. -/
def joinAmp : List (List Char) → List Char
  | [] => []
  | [x] => x
  | x :: y :: rest => x ++ '&' :: joinAmp (y :: rest)

/-- `urlencode(query, doseq=True)` on the grouped dictionary. -/
def urlencodePairs (g : List (List Char × List (List Char))) :
    List Char :=
  joinAmp (g.flatMap fun kv =>
    kv.2.map fun v => quotePlus kv.1 ++ '=' :: quotePlus v)

/-- Reattach `;params` to the path. -/
def rebuildPP (path params : List Char) : List Char :=
  if params = [] then path else path ++ ';' :: params

/-- `urllib.parse.uses_netloc` (CPython 3.11). -/
def usesNetlocList : List String :=
  ["", "ftp", "http", "gopher", "nntp", "telnet", "imap", "wais",
   "file", "mms", "https", "shttp", "snews", "prospero", "rtsp",
   "rtsps", "rtspu", "rsync", "svn", "svn+ssh", "sftp", "nfs",
   "git", "git+ssh", "ws", "wss"]

/-- `scheme in uses_netloc`. -/
def usesNetloc (scheme : List Char) : Bool :=
  usesNetlocList.any fun s => s.toList == scheme

/-- `urlunsplit`: the `//` + netloc block is emitted when a netloc is
present, or when the scheme is nonempty, is in `uses_netloc` and the
path does not already start with `//`. -/
def urlunsplit (scheme netloc path query fragment : List Char) :
    List Char :=
  let url1 :=
    if netloc ≠ [] ∨
        (scheme ≠ [] ∧ usesNetloc scheme = true ∧
          path.take 2 ≠ ['/', '/']) then
      '/' :: '/' :: (netloc ++
        (if path ≠ [] ∧ path.take 1 ≠ ['/'] then '/' :: path else path))
    else path
  let url2 := if scheme ≠ [] then scheme ++ ':' :: url1 else url1
  let url3 := if query ≠ [] then url2 ++ '?' :: query else url2
  if fragment ≠ [] then url3 ++ '#' :: fragment else url3

/-- `urlunparse`. -/
def urlunparseChars (p : UrlParts) : List Char :=
  urlunsplit p.scheme p.netloc (rebuildPP p.path p.params) p.query
    p.fragment

/-- The query transformation of `normalize_url`: parse, group, drop
`utm_` parameters, re-encode. -/
def normalizeQuery (q : List Char) : List Char :=
  urlencodePairs (filterUtm (groupPairs (parse_qsl q)))

/-- `OdesliBot.normalize_url` over `List Char`. -/
def normalizeChars (l : List Char) : List Char :=
  let p := urlparseChars l
  urlunparseChars ⟨p.scheme, p.netloc, p.path, p.params,
    normalizeQuery p.query, p.fragment⟩

/-- `OdesliBot.normalize_url`. -/
def normalize_url (url : String) : String :=
  (normalizeChars url.toList).asString

/-! ### Auxiliary lemmas for the query pipeline -/

/-- `Char.ofNat` on a byte value round-trips through `toNat`. -/
theorem char_toNat_ofNat_byte (n : Nat) (h : n < 256) :
    (Char.ofNat n).toNat = n := by
  have hv : Nat.isValidChar n := Or.inl (by omega)
  rw [Char.ofNat, dif_pos hv]
  rfl

theorem percentDecode_cons_ne (c : Char) (t : List Char)
    (h : c.toNat ≠ 37) :
    percentDecode (c :: t) = c :: percentDecode t := by
  match t with
  | [] => rfl
  | [a] => rfl
  | a :: b :: rest => simp only [percentDecode, if_neg h]

theorem hexDigit_toNat (n : Nat) (h : n < 16) :
    (hexDigit n).toNat = if n < 10 then 48 + n else 55 + n := by
  unfold hexDigit
  by_cases h10 : n < 10
  · rw [if_pos h10, if_pos h10, char_toNat_ofNat_byte _ (by omega)]
  · rw [if_neg h10, if_neg h10, char_toNat_ofNat_byte _ (by omega)]

theorem hexVal_hexDigit (n : Nat) (h : n < 16) :
    hexVal (hexDigit n) = some n := by
  have ht := hexDigit_toNat n h
  by_cases h10 : n < 10
  · rw [if_pos h10] at ht
    unfold hexVal
    rw [ht, if_pos (by omega)]
    congr 1
    omega
  · rw [if_neg h10] at ht
    unfold hexVal
    rw [ht, if_neg (by omega), if_neg (by omega), if_pos (by omega)]
    congr 1
    omega

theorem isAlwaysSafe_facts (c : Char) (h : isAlwaysSafe c = true) :
    c.toNat ≠ 37 ∧ c.toNat ≠ 43 ∧ c.toNat ≠ 38 ∧ c.toNat ≠ 61 ∧
      c.toNat ≠ 32 := by
  simp only [isAlwaysSafe, isAsciiAlphaChar, isAsciiUpper, isDigitChar,
    Bool.or_eq_true, Bool.and_eq_true, decide_eq_true_eq] at h
  omega

theorem quotePlusChar_sep_free (c x : Char)
    (hx : x ∈ quotePlusChar c) : x.toNat ≠ 38 ∧ x.toNat ≠ 61 := by
  unfold quotePlusChar at hx
  by_cases hs : isAlwaysSafe c
  · rw [if_pos hs] at hx
    rw [List.mem_singleton] at hx
    subst hx
    exact ⟨(isAlwaysSafe_facts x hs).2.2.1,
      (isAlwaysSafe_facts x hs).2.2.2.1⟩
  · rw [if_neg hs] at hx
    by_cases hsp : c = ' '
    · rw [if_pos hsp] at hx
      rw [List.mem_singleton] at hx
      subst hx
      decide
    · rw [if_neg hsp] at hx
      have h16a : c.toNat % 256 / 16 < 16 := by omega
      have h16b : c.toNat % 256 % 16 < 16 := by omega
      rcases List.mem_cons.mp hx with rfl | hx
      · decide
      · rcases List.mem_cons.mp hx with rfl | hx
        · have := hexDigit_toNat _ h16a
          split at this <;> omega
        · rw [List.mem_singleton] at hx
          subst hx
          have := hexDigit_toNat _ h16b
          split at this <;> omega

theorem quotePlus_sep_free (l : List Char) (x : Char)
    (hx : x ∈ quotePlus l) : x.toNat ≠ 38 ∧ x.toNat ≠ 61 := by
  unfold quotePlus at hx
  rw [List.mem_flatMap] at hx
  obtain ⟨c, _, hc⟩ := hx
  exact quotePlusChar_sep_free c x hc

/-- Decoding is a left inverse of `quote_plus` on byte strings. -/
theorem decode_plusReplace_quotePlus (s : List Char)
    (hb : ∀ c ∈ s, c.toNat < 256) :
    percentDecode (plusReplace (quotePlus s)) = s := by
  induction s with
  | nil => rfl
  | cons c s ih =>
    have hc : c.toNat < 256 := hb c (List.mem_cons_self c s)
    have ih' := ih fun x hx => hb x (List.mem_cons_of_mem c hx)
    have hqp : quotePlus (c :: s) = quotePlusChar c ++ quotePlus s := by
      simp [quotePlus]
    rw [hqp]
    by_cases hs : isAlwaysSafe c
    · have hfacts := isAlwaysSafe_facts c hs
      have hne : c ≠ '+' := by
        intro heq
        subst heq
        exact hfacts.2.1 rfl
      rw [show quotePlusChar c = [c] from by rw [quotePlusChar, if_pos hs]]
      show percentDecode (plusReplace (c :: quotePlus s)) = c :: s
      rw [show plusReplace (c :: quotePlus s)
          = c :: plusReplace (quotePlus s) from by
        simp [plusReplace, hne]]
      rw [percentDecode_cons_ne c _ hfacts.1, ih']
    · by_cases hsp : c = ' '
      · rw [show quotePlusChar c = ['+'] from by
          rw [quotePlusChar, if_neg hs, if_pos hsp]]
        show percentDecode (plusReplace ('+' :: quotePlus s)) = c :: s
        rw [show plusReplace ('+' :: quotePlus s)
            = ' ' :: plusReplace (quotePlus s) from by simp [plusReplace]]
        rw [percentDecode_cons_ne ' ' _ (by decide), ih', hsp]
      · rw [show quotePlusChar c
            = ['%', hexDigit (c.toNat % 256 / 16),
               hexDigit (c.toNat % 256 % 16)] from by
          rw [quotePlusChar, if_neg hs, if_neg hsp]]
        have h16a : c.toNat % 256 / 16 < 16 := by omega
        have h16b : c.toNat % 256 % 16 < 16 := by omega
        have hplus : ∀ n, n < 16 → hexDigit n ≠ '+' := by
          intro n hn heq
          have := hexDigit_toNat n hn
          rw [heq] at this
          have h43 : (43 : Nat) = if n < 10 then 48 + n else 55 + n := this
          split at h43 <;> omega
        show percentDecode (plusReplace
          ('%' :: hexDigit (c.toNat % 256 / 16)
            :: hexDigit (c.toNat % 256 % 16) :: quotePlus s)) = c :: s
        rw [show plusReplace
            ('%' :: hexDigit (c.toNat % 256 / 16)
              :: hexDigit (c.toNat % 256 % 16) :: quotePlus s)
            = '%' :: hexDigit (c.toNat % 256 / 16)
              :: hexDigit (c.toNat % 256 % 16)
              :: plusReplace (quotePlus s) from by
          simp [plusReplace, hplus _ h16a, hplus _ h16b]]
        rw [show percentDecode
            ('%' :: hexDigit (c.toNat % 256 / 16)
              :: hexDigit (c.toNat % 256 % 16)
              :: plusReplace (quotePlus s))
            = Char.ofNat (16 * (c.toNat % 256 / 16) + c.toNat % 256 % 16)
              :: percentDecode (plusReplace (quotePlus s)) from by
          simp only [percentDecode, if_pos (show ('%').toNat = 37 from rfl),
            hexVal_hexDigit _ h16a, hexVal_hexDigit _ h16b]]
        rw [ih']
        congr 1
        rw [show 16 * (c.toNat % 256 / 16) + c.toNat % 256 % 16
            = c.toNat from by omega]
        exact Char.ofNat_toNat c

theorem breakOnFirst_append (c : Char) (l1 l2 : List Char)
    (h : c ∉ l1) :
    breakOnFirst c (l1 ++ c :: l2) = some (l1, l2) := by
  induction l1 with
  | nil => simp [breakOnFirst]
  | cons a l1 ih =>
    have ha : a ≠ c := fun heq => h (heq ▸ List.mem_cons_self a l1)
    rw [List.cons_append]
    unfold breakOnFirst
    rw [if_neg ha, ih fun hm => h (List.mem_cons_of_mem a hm)]

theorem parsePair_token (k v : List Char)
    (hk : ∀ c ∈ k, c.toNat < 256) (hv : ∀ c ∈ v, c.toNat < 256) :
    parsePair (quotePlus k ++ '=' :: quotePlus v) = some (k, v) := by
  have hne : (quotePlus k ++ '=' :: quotePlus v).isEmpty = false := by
    cases hq : quotePlus k with
    | nil => rfl
    | cons a t => rfl
  have hnotin : '=' ∉ quotePlus k := fun hm =>
    (quotePlus_sep_free k '=' hm).2 rfl
  unfold parsePair
  rw [hne]
  show (match breakOnFirst '=' (quotePlus k ++ '=' :: quotePlus v) with
    | some nv =>
      some (percentDecode (plusReplace nv.1),
        percentDecode (plusReplace nv.2))
    | none =>
      some (percentDecode (plusReplace
        (quotePlus k ++ '=' :: quotePlus v)), [])) = some (k, v)
  rw [breakOnFirst_append '=' (quotePlus k) (quotePlus v) hnotin]
  show some (percentDecode (plusReplace (quotePlus k)),
    percentDecode (plusReplace (quotePlus v))) = some (k, v)
  rw [decode_plusReplace_quotePlus k hk, decode_plusReplace_quotePlus v hv]

theorem splitOnAmpAux_no_amp (l : List Char) (h : '&' ∉ l) :
    ∀ acc, splitOnAmpAux l acc = [acc.reverse ++ l] := by
  induction l with
  | nil => intro acc; simp [splitOnAmpAux]
  | cons c l ih =>
    intro acc
    have hc : c ≠ '&' := fun heq => h (heq ▸ List.mem_cons_self c l)
    rw [splitOnAmpAux, if_neg hc,
      ih (fun hm => h (List.mem_cons_of_mem c hm)) (c :: acc)]
    simp

theorem splitOnAmpAux_amp (t rest : List Char) (h : '&' ∉ t) :
    ∀ acc, splitOnAmpAux (t ++ '&' :: rest) acc =
      (acc.reverse ++ t) :: splitOnAmpAux rest [] := by
  induction t with
  | nil =>
    intro acc
    rw [List.nil_append, splitOnAmpAux, if_pos rfl]
    simp
  | cons c t ih =>
    intro acc
    have hc : c ≠ '&' := fun heq => h (heq ▸ List.mem_cons_self c t)
    rw [List.cons_append, splitOnAmpAux, if_neg hc,
      ih (fun hm => h (List.mem_cons_of_mem c hm)) (c :: acc)]
    simp

theorem splitOnAmp_joinAmp (tokens : List (List Char))
    (h : ∀ t ∈ tokens, '&' ∉ t) (hne : tokens ≠ []) :
    splitOnAmp (joinAmp tokens) = tokens := by
  induction tokens with
  | nil => exact absurd rfl hne
  | cons t ts ih =>
    cases ts with
    | nil =>
      show splitOnAmpAux t [] = [t]
      rw [splitOnAmpAux_no_amp t (h t (List.mem_cons_self t [])) []]
      simp
    | cons u ts2 =>
      show splitOnAmpAux (t ++ '&' :: joinAmp (u :: ts2)) [] = t :: u :: ts2
      rw [splitOnAmpAux_amp t _ (h t (List.mem_cons_self _ _)) []]
      rw [List.reverse_nil, List.nil_append]
      congr 1
      exact ih (fun x hx => h x (List.mem_cons_of_mem t hx)) (by simp)

/-- The decoded pairs of a grouped dictionary, flattened back to
occurrence order. -/
def flatPairs (g : List (List Char × List (List Char))) :
    List (List Char × List Char) :=
  g.flatMap fun kv => kv.2.map fun v => (kv.1, v)

theorem filterMap_parsePair_values (k : List Char)
    (vs : List (List Char))
    (hk : ∀ c ∈ k, c.toNat < 256)
    (hvs : ∀ v ∈ vs, ∀ c ∈ v, c.toNat < 256) :
    (vs.map fun v =>
        quotePlus k ++ '=' :: quotePlus v).filterMap parsePair =
      vs.map fun v => (k, v) := by
  induction vs with
  | nil => rfl
  | cons v vs ih =>
    rw [List.map_cons, List.map_cons,
      List.filterMap_cons_some
        (parsePair_token k v hk (hvs v (List.mem_cons_self v vs))),
      ih fun x hx => hvs x (List.mem_cons_of_mem v hx)]

theorem filterMap_parsePair_tokens
    (g : List (List Char × List (List Char)))
    (hb : ∀ kv ∈ g, (∀ c ∈ kv.1, c.toNat < 256) ∧
      ∀ v ∈ kv.2, ∀ c ∈ v, c.toNat < 256) :
    (g.flatMap fun kv => kv.2.map fun v =>
        quotePlus kv.1 ++ '=' :: quotePlus v).filterMap parsePair =
      flatPairs g := by
  induction g with
  | nil => rfl
  | cons kv g ih =>
    obtain ⟨hk, hvs⟩ := hb kv (List.mem_cons_self kv g)
    simp only [flatPairs, List.flatMap_cons, List.filterMap_append]
    rw [filterMap_parsePair_values kv.1 kv.2 hk hvs,
      ih fun x hx => hb x (List.mem_cons_of_mem kv hx)]
    rfl

theorem tokens_amp_free (g : List (List Char × List (List Char))) :
    ∀ t ∈ (g.flatMap fun kv => kv.2.map fun v =>
      quotePlus kv.1 ++ '=' :: quotePlus v), '&' ∉ t := by
  intro t ht hamp
  rw [List.mem_flatMap] at ht
  obtain ⟨kv, _, ht⟩ := ht
  rw [List.mem_map] at ht
  obtain ⟨v, _, rfl⟩ := ht
  rw [List.mem_append] at hamp
  rcases hamp with hm | hm
  · exact (quotePlus_sep_free _ _ hm).1 rfl
  · rcases List.mem_cons.mp hm with heq | hm
    · exact absurd heq (by decide)
    · exact (quotePlus_sep_free _ _ hm).1 rfl

/-- `parse_qsl` inverts `urlencode(..., doseq=True)` on grouped byte
dictionaries with nonempty value lists. -/
theorem parse_qsl_urlencodePairs
    (g : List (List Char × List (List Char)))
    (hb : ∀ kv ∈ g, (∀ c ∈ kv.1, c.toNat < 256) ∧
      ∀ v ∈ kv.2, ∀ c ∈ v, c.toNat < 256)
    (hne : ∀ kv ∈ g, kv.2 ≠ []) :
    parse_qsl (urlencodePairs g) = flatPairs g := by
  cases g with
  | nil => rfl
  | cons kv g2 =>
    have hvne : kv.2 ≠ [] := hne kv (List.mem_cons_self _ _)
    have htne : ((kv :: g2).flatMap fun kv => kv.2.map fun v =>
        quotePlus kv.1 ++ '=' :: quotePlus v) ≠ [] := by
      cases hv : kv.2 with
      | nil => exact absurd hv hvne
      | cons v vs => simp [hv]
    show parse_qsl (joinAmp _) = _
    unfold parse_qsl
    rw [splitOnAmp_joinAmp _ (tokens_amp_free _) htne,
      filterMap_parsePair_tokens _ hb]

theorem find?_keys_none (A : List (List Char × List (List Char)))
    (k : List Char) (h : ∀ kv ∈ A, kv.1 ≠ k) :
    A.find? (fun kv => kv.1 == k) = none :=
  List.find?_eq_none.mpr fun kv hkv hbeq => h kv hkv (eq_of_beq hbeq)

theorem groupStep_found (acc : List (List Char × List (List Char)))
    (p : List Char × List Char) (kv0 : List Char × List (List Char))
    (hf : acc.find? (fun kv => kv.1 == p.1) = some kv0) :
    groupStep acc p =
      acc.map fun kv =>
        if kv.1 == p.1 then (kv.1, kv.2 ++ [p.2]) else kv := by
  unfold groupStep
  rw [hf]

theorem groupStep_new (acc : List (List Char × List (List Char)))
    (p : List Char × List Char)
    (hf : acc.find? (fun kv => kv.1 == p.1) = none) :
    groupStep acc p = acc ++ [(p.1, [p.2])] := by
  unfold groupStep
  rw [hf]

theorem foldl_groupStep_run (A : List (List Char × List (List Char)))
    (k : List Char) (hA : ∀ kv ∈ A, kv.1 ≠ k) (vs : List (List Char)) :
    ∀ ws, (vs.map fun v => ((k, v) : List Char × List Char)).foldl
        groupStep (A ++ [(k, ws)]) =
      A ++ [(k, ws ++ vs)] := by
  induction vs with
  | nil => intro ws; simp
  | cons v vs ih =>
    intro ws
    rw [List.map_cons, List.foldl_cons]
    have hfind : (A ++ [(k, ws)]).find?
        (fun kv => kv.1 == ((k, v) : List Char × List Char).1)
        = some (k, ws) := by
      rw [List.find?_append, find?_keys_none A k hA]
      simp [List.find?]
    rw [groupStep_found _ _ _ hfind, List.map_append]
    have hmapA : (A.map fun kv =>
        if kv.1 == ((k, v) : List Char × List Char).1
        then (kv.1, kv.2 ++ [((k, v) : List Char × List Char).2])
        else kv) = A := by
      conv_rhs => rw [← List.map_id A]
      apply List.map_congr_left
      intro kv hkv
      have : (kv.1 == k) = false := beq_eq_false_iff_ne.mpr (hA kv hkv)
      simp [this]
    rw [hmapA]
    have hmap1 : (([(k, ws)] :
        List (List Char × List (List Char))).map fun kv =>
        if kv.1 == ((k, v) : List Char × List Char).1
        then (kv.1, kv.2 ++ [((k, v) : List Char × List Char).2])
        else kv) = [(k, ws ++ [v])] := by
      simp
    rw [hmap1, ih (ws ++ [v])]
    simp

theorem foldl_groupStep_flatPairs
    (g : List (List Char × List (List Char))) :
    ∀ A, (g.map Prod.fst).Nodup → (∀ kv ∈ g, kv.2 ≠ []) →
      (∀ kv ∈ A, ∀ kv2 ∈ g, kv.1 ≠ kv2.1) →
      (flatPairs g).foldl groupStep A = A ++ g := by
  induction g with
  | nil => intro A _ _ _; simp [flatPairs]
  | cons kv g ih =>
    intro A hnd hvne hA
    obtain ⟨k, vs⟩ := kv
    have hAk : ∀ kv2 ∈ A, kv2.1 ≠ k := fun kv2 hkv2 =>
      hA kv2 hkv2 (k, vs) (List.mem_cons_self _ _)
    have hvs : vs ≠ [] := hvne (k, vs) (List.mem_cons_self _ _)
    obtain ⟨v0, vs2, rfl⟩ : ∃ v0 vs2, vs = v0 :: vs2 := by
      cases vs with
      | nil => exact absurd rfl hvs
      | cons a b => exact ⟨a, b, rfl⟩
    rw [show flatPairs ((k, v0 :: vs2) :: g)
        = ((v0 :: vs2).map fun v => ((k, v) : List Char × List Char))
          ++ flatPairs g from by simp [flatPairs]]
    rw [List.foldl_append, List.map_cons, List.foldl_cons]
    have hfirst : groupStep A (k, v0) = A ++ [(k, [v0])] :=
      groupStep_new A (k, v0) (find?_keys_none A k hAk)
    rw [hfirst, foldl_groupStep_run A k hAk vs2 [v0]]
    simp only [List.map_cons, List.nodup_cons] at hnd
    rw [ih (A ++ [(k, [v0] ++ vs2)]) hnd.2
      (fun x hx => hvne x (List.mem_cons_of_mem _ hx))
      ?_]
    · simp
    · intro kv2 hkv2 kv3 hkv3
      rcases List.mem_append.mp hkv2 with hm | hm
      · exact hA kv2 hm kv3 (List.mem_cons_of_mem _ hkv3)
      · rw [List.mem_singleton] at hm
        subst hm
        intro heq
        have hk3 : kv3.1 = k := heq.symm
        exact hnd.1 (hk3 ▸ List.mem_map_of_mem Prod.fst hkv3)

theorem foldl_groupStep_inv (Pk Pv : List Char → Prop)
    (ps : List (List Char × List Char)) :
    ∀ acc, (((acc.map Prod.fst).Nodup ∧
        ∀ kv ∈ acc, kv.2 ≠ [] ∧ Pk kv.1 ∧ ∀ v ∈ kv.2, Pv v)) →
      (∀ p ∈ ps, Pk p.1 ∧ Pv p.2) →
      (((ps.foldl groupStep acc).map Prod.fst).Nodup ∧
        ∀ kv ∈ ps.foldl groupStep acc,
          kv.2 ≠ [] ∧ Pk kv.1 ∧ ∀ v ∈ kv.2, Pv v) := by
  induction ps with
  | nil => intro acc hacc _; exact hacc
  | cons p ps ih =>
    intro acc hacc hps
    rw [List.foldl_cons]
    refine ih (groupStep acc p) ?_
      fun x hx => hps x (List.mem_cons_of_mem p hx)
    obtain ⟨hnd, hmem⟩ := hacc
    obtain ⟨hPk, hPv⟩ := hps p (List.mem_cons_self _ _)
    cases hf : acc.find? (fun kv => kv.1 == p.1) with
    | some kv0 =>
      rw [groupStep_found acc p kv0 hf]
      constructor
      · have hkeys : ((acc.map fun kv =>
            if kv.1 == p.1 then (kv.1, kv.2 ++ [p.2])
            else kv).map Prod.fst) = acc.map Prod.fst := by
          rw [List.map_map]
          apply List.map_congr_left
          intro kv _
          show (if kv.1 == p.1 then (kv.1, kv.2 ++ [p.2])
            else kv).1 = kv.1
          by_cases hb : (kv.1 == p.1) = true
          · rw [if_pos hb]
          · rw [if_neg hb]
        rw [hkeys]
        exact hnd
      · intro kv hkv
        rw [List.mem_map] at hkv
        obtain ⟨kv1, hkv1, heq⟩ := hkv
        obtain ⟨h1, h2, h3⟩ := hmem kv1 hkv1
        by_cases hb : (kv1.1 == p.1) = true
        · rw [if_pos hb] at heq
          subst heq
          refine ⟨by simp, h2, ?_⟩
          intro v hv
          rcases List.mem_append.mp hv with hv | hv
          · exact h3 v hv
          · rw [List.mem_singleton] at hv
            subst hv
            exact hPv
        · rw [if_neg hb] at heq
          subst heq
          exact ⟨h1, h2, h3⟩
    | none =>
      rw [groupStep_new acc p hf]
      have hnotin : ∀ kv ∈ acc, kv.1 ≠ p.1 :=
        fun kv hkv heq => by
          have := List.find?_eq_none.mp hf kv hkv
          exact this (by rw [heq]; exact beq_self_eq_true p.1)
      constructor
      · rw [List.map_append]
        rw [List.nodup_append]
        refine ⟨hnd, List.nodup_singleton _, ?_⟩
        intro a ha hb
        rw [List.map_cons, List.map_nil, List.mem_singleton] at hb
        rw [List.mem_map] at ha
        obtain ⟨kv1, hkv1, heq⟩ := ha
        exact hnotin kv1 hkv1 (by rw [heq, hb])
      · intro kv hkv
        rcases List.mem_append.mp hkv with hm | hm
        · exact hmem kv hm
        · rw [List.mem_singleton] at hm
          subst hm
          refine ⟨by simp, hPk, ?_⟩
          intro v hv
          rw [List.mem_singleton] at hv
          subst hv
          exact hPv

theorem groupPairs_inv (Pk Pv : List Char → Prop)
    (ps : List (List Char × List Char))
    (hps : ∀ p ∈ ps, Pk p.1 ∧ Pv p.2) :
    (((groupPairs ps).map Prod.fst).Nodup ∧
      ∀ kv ∈ groupPairs ps,
        kv.2 ≠ [] ∧ Pk kv.1 ∧ ∀ v ∈ kv.2, Pv v) :=
  foldl_groupStep_inv Pk Pv ps []
    ⟨List.nodup_nil, fun kv hkv => absurd hkv (List.not_mem_nil kv)⟩
    hps

theorem mem_splitOnAmpAux (l : List Char) :
    ∀ acc chunk, chunk ∈ splitOnAmpAux l acc →
      ∀ c ∈ chunk, c ∈ l ∨ c ∈ acc := by
  induction l with
  | nil =>
    intro acc chunk hc c hcm
    rw [show splitOnAmpAux [] acc = [acc.reverse] from rfl,
      List.mem_singleton] at hc
    subst hc
    exact Or.inr (List.mem_reverse.mp hcm)
  | cons a l ih =>
    intro acc chunk hc c hcm
    by_cases ha : a = '&'
    · rw [splitOnAmpAux, if_pos ha] at hc
      rcases List.mem_cons.mp hc with rfl | hc
      · exact Or.inr (List.mem_reverse.mp hcm)
      · rcases ih [] chunk hc c hcm with h | h
        · exact Or.inl (List.mem_cons_of_mem a h)
        · exact absurd h (List.not_mem_nil c)
    · rw [splitOnAmpAux, if_neg ha] at hc
      rcases ih (a :: acc) chunk hc c hcm with h | h
      · exact Or.inl (List.mem_cons_of_mem a h)
      · rcases List.mem_cons.mp h with rfl | h
        · exact Or.inl (List.mem_cons_self _ _)
        · exact Or.inr h

theorem breakOnFirst_sub (c : Char) (l : List Char) :
    ∀ pre post, breakOnFirst c l = some (pre, post) →
      (∀ x ∈ pre, x ∈ l) ∧ ∀ x ∈ post, x ∈ l := by
  induction l with
  | nil => intro pre post h; exact absurd h (by rw [breakOnFirst]; simp)
  | cons a l ih =>
    intro pre post h
    rw [breakOnFirst] at h
    by_cases ha : a = c
    · rw [if_pos ha] at h
      rw [Option.some.injEq, Prod.mk.injEq] at h
      obtain ⟨h1, h2⟩ := h
      subst h1
      subst h2
      exact ⟨fun x hx => absurd hx (List.not_mem_nil x),
        fun x hx => List.mem_cons_of_mem a hx⟩
    · rw [if_neg ha] at h
      cases hb : breakOnFirst c l with
      | none => rw [hb] at h; exact absurd h (by simp)
      | some pq =>
        rw [hb] at h
        rw [Option.some.injEq, Prod.mk.injEq] at h
        obtain ⟨h1, h2⟩ := h
        subst h1
        subst h2
        obtain ⟨hs1, hs2⟩ := ih pq.1 pq.2 (by rw [hb])
        constructor
        · intro x hx
          rcases List.mem_cons.mp hx with rfl | hx
          · exact List.mem_cons_self _ _
          · exact List.mem_cons_of_mem a (hs1 x hx)
        · exact fun x hx => List.mem_cons_of_mem a (hs2 x hx)

theorem plusReplace_bytes (l : List Char)
    (hb : ∀ c ∈ l, c.toNat < 256) :
    ∀ c ∈ plusReplace l, c.toNat < 256 := by
  intro c hc
  rw [plusReplace, List.mem_map] at hc
  obtain ⟨a, ha, heq⟩ := hc
  by_cases hp : a = '+'
  · rw [if_pos hp] at heq
    subst heq
    decide
  · rw [if_neg hp] at heq
    subst heq
    exact hb a ha

theorem hexVal_lt (c : Char) (n : Nat) (h : hexVal c = some n) :
    n < 16 := by
  unfold hexVal at h
  split at h
  · rw [Option.some.injEq] at h
    omega
  · split at h
    · rw [Option.some.injEq] at h
      omega
    · split at h
      · rw [Option.some.injEq] at h
        omega
      · exact absurd h (by simp)

theorem percentDecode_bytes : ∀ l : List Char,
    (∀ c ∈ l, c.toNat < 256) → ∀ c ∈ percentDecode l, c.toNat < 256
  | [] => fun _ c hc => absurd hc (List.not_mem_nil c)
  | [a] => fun hb c hc => by
    rw [show percentDecode [a] = [a] from rfl, List.mem_singleton] at hc
    subst hc
    exact hb c (List.mem_cons_self _ _)
  | [a, b] => fun hb c hc => by
    rw [show percentDecode [a, b] = [a, b] from rfl] at hc
    rcases List.mem_cons.mp hc with rfl | hc
    · exact hb c (List.mem_cons_self _ _)
    · rw [List.mem_singleton] at hc
      subst hc
      exact hb c (List.mem_cons_of_mem a (List.mem_cons_self _ _))
  | a :: b :: d :: rest => fun hb c hc => by
    have hr1 : ∀ c ∈ percentDecode rest, c.toNat < 256 :=
      percentDecode_bytes rest fun x hx => hb x
        (List.mem_cons_of_mem a (List.mem_cons_of_mem b
          (List.mem_cons_of_mem d hx)))
    have hr3 : ∀ c ∈ percentDecode (b :: d :: rest), c.toNat < 256 :=
      percentDecode_bytes (b :: d :: rest) fun x hx => hb x
        (List.mem_cons_of_mem a hx)
    simp only [percentDecode] at hc
    by_cases ha : a.toNat = 37
    · rw [if_pos ha] at hc
      split at hc
      · next nb nd hvb hvd =>
        rcases List.mem_cons.mp hc with rfl | hc
        · have h1 := hexVal_lt b nb hvb
          have h2 := hexVal_lt d nd hvd
          rw [char_toNat_ofNat_byte _ (by omega)]
          omega
        · exact hr1 c hc
      · rcases List.mem_cons.mp hc with rfl | hc
        · exact hb c (List.mem_cons_self _ _)
        · exact hr3 c hc
    · rw [if_neg ha] at hc
      rcases List.mem_cons.mp hc with rfl | hc
      · exact hb c (List.mem_cons_self _ _)
      · exact hr3 c hc

theorem parse_qsl_bytes (qs : List Char)
    (hb : ∀ c ∈ qs, c.toNat < 256) :
    ∀ p ∈ parse_qsl qs,
      (∀ c ∈ p.1, c.toNat < 256) ∧ ∀ c ∈ p.2, c.toNat < 256 := by
  intro p hp
  unfold parse_qsl at hp
  rw [List.mem_filterMap] at hp
  obtain ⟨chunk, hchunk, hpp⟩ := hp
  have hcb : ∀ c ∈ chunk, c.toNat < 256 := by
    intro c hc
    rcases mem_splitOnAmpAux qs [] chunk hchunk c hc with h | h
    · exact hb c h
    · exact absurd h (List.not_mem_nil c)
  unfold parsePair at hpp
  by_cases he : chunk.isEmpty = true
  · rw [if_pos he] at hpp
    exact absurd hpp (by simp)
  · rw [if_neg he] at hpp
    cases hbr : breakOnFirst '=' chunk with
    | some nv =>
      rw [hbr] at hpp
      rw [Option.some.injEq] at hpp
      subst hpp
      obtain ⟨hs1, hs2⟩ := breakOnFirst_sub '=' chunk nv.1 nv.2
        (by rw [hbr])
      exact ⟨percentDecode_bytes _
          (plusReplace_bytes _ fun x hx => hcb x (hs1 x hx)),
        percentDecode_bytes _
          (plusReplace_bytes _ fun x hx => hcb x (hs2 x hx))⟩
    | none =>
      rw [hbr] at hpp
      rw [Option.some.injEq] at hpp
      subst hpp
      refine ⟨percentDecode_bytes _ (plusReplace_bytes _ hcb), ?_⟩
      intro c hc
      exact absurd hc (List.not_mem_nil c)

/-- Claim C9 (amended): `normalize_url` is not idempotent and does not
keep the remaining query verbatim (see `c9_counterexample`); what holds
is at the query level, for byte strings: re-parsing the query produced
by normalization yields exactly the non-`utm_` parameters of the
original query (keys grouped in first-occurrence order with their
decoded values), the query transformation is idempotent, and no
parameter whose decoded name starts with `utm_` survives. -/
theorem c9_amended (q : List Char) (hq : ∀ c ∈ q, c.toNat < 256) :
    groupPairs (parse_qsl (normalizeQuery q)) =
      filterUtm (groupPairs (parse_qsl q)) ∧
    normalizeQuery (normalizeQuery q) = normalizeQuery q ∧
    ∀ kv ∈ groupPairs (parse_qsl (normalizeQuery q)),
      utmTest kv.1 = false := by
  have hinv := groupPairs_inv (fun k => ∀ c ∈ k, c.toNat < 256)
    (fun v => ∀ c ∈ v, c.toNat < 256) (parse_qsl q)
    (parse_qsl_bytes q hq)
  have hgb : ∀ kv ∈ filterUtm (groupPairs (parse_qsl q)),
      (∀ c ∈ kv.1, c.toNat < 256) ∧
        ∀ v ∈ kv.2, ∀ c ∈ v, c.toNat < 256 :=
    fun kv hkv => ⟨(hinv.2 kv (List.mem_of_mem_filter hkv)).2.1,
      (hinv.2 kv (List.mem_of_mem_filter hkv)).2.2⟩
  have hgne : ∀ kv ∈ filterUtm (groupPairs (parse_qsl q)), kv.2 ≠ [] :=
    fun kv hkv => (hinv.2 kv (List.mem_of_mem_filter hkv)).1
  have hgnd : ((filterUtm (groupPairs (parse_qsl q))).map
      Prod.fst).Nodup :=
    List.Nodup.sublist
      (List.Sublist.map Prod.fst (List.filter_sublist _)) hinv.1
  have hgutm : ∀ kv ∈ filterUtm (groupPairs (parse_qsl q)),
      utmTest kv.1 = false := by
    intro kv hkv
    have := List.of_mem_filter hkv
    rwa [Bool.not_eq_eq_eq_not, Bool.not_true] at this
  have hqsl : parse_qsl (urlencodePairs
        (filterUtm (groupPairs (parse_qsl q)))) =
      flatPairs (filterUtm (groupPairs (parse_qsl q))) :=
    parse_qsl_urlencodePairs _ hgb hgne
  have hgrp : groupPairs (flatPairs
        (filterUtm (groupPairs (parse_qsl q)))) =
      filterUtm (groupPairs (parse_qsl q)) := by
    have := foldl_groupStep_flatPairs
      (filterUtm (groupPairs (parse_qsl q))) [] hgnd hgne
      (fun kv hkv => absurd hkv (List.not_mem_nil kv))
    rw [show groupPairs (flatPairs
        (filterUtm (groupPairs (parse_qsl q))))
      = (flatPairs (filterUtm (groupPairs
          (parse_qsl q)))).foldl groupStep [] from rfl, this]
    rfl
  have hmain : groupPairs (parse_qsl (normalizeQuery q)) =
      filterUtm (groupPairs (parse_qsl q)) := by
    rw [show normalizeQuery q = urlencodePairs
        (filterUtm (groupPairs (parse_qsl q))) from rfl, hqsl, hgrp]
  refine ⟨hmain, ?_, ?_⟩
  · rw [show normalizeQuery (normalizeQuery q) = urlencodePairs
        (filterUtm (groupPairs (parse_qsl (normalizeQuery q))))
      from rfl, hmain]
    have hfix : filterUtm (filterUtm (groupPairs (parse_qsl q))) =
        filterUtm (groupPairs (parse_qsl q)) := by
      apply List.filter_eq_self.mpr
      intro kv hkv
      rw [hgutm kv hkv]
      rfl
    rw [hfix]
    rfl
  · intro kv hkv
    rw [hmain] at hkv
    exact hgutm kv hkv

/-- Witness for `c9_amended`, at the query
`utm_source=tg&a=1&b=2&a=3`. -/
theorem c9_amended_witness :
    groupPairs (parse_qsl (normalizeQuery
        ("utm_source=tg&a=1&b=2&a=3".toList))) =
      filterUtm (groupPairs (parse_qsl
        ("utm_source=tg&a=1&b=2&a=3".toList))) ∧
    normalizeQuery (normalizeQuery ("utm_source=tg&a=1&b=2&a=3".toList))
      = normalizeQuery ("utm_source=tg&a=1&b=2&a=3".toList) ∧
    ∀ kv ∈ groupPairs (parse_qsl (normalizeQuery
        ("utm_source=tg&a=1&b=2&a=3".toList))),
      utmTest kv.1 = false :=
  c9_amended ("utm_source=tg&a=1&b=2&a=3".toList) (by decide)

/-- Claim C9 (counterexample): `normalize_url` is NOT idempotent — on
`foo://///x` it yields `foo:///x`, which normalizes further to
`foo:/x` (`urlunsplit` re-emits the `//` only for `uses_netloc`
schemes, so one slash layer is lost per pass) — and it does NOT keep
the remaining query parameters as they were: `http://h/p?a=1&b=2&a=3`
has no `utm_` parameter at all, yet its normalization regroups the
duplicate key `a`, so the result differs from the input. -/
theorem c9_counterexample :
    normalize_url "foo://///x" = "foo:///x" ∧
    normalize_url "foo:///x" = "foo:/x" ∧
    normalize_url (normalize_url "foo://///x") ≠
      normalize_url "foo://///x" ∧
    normalize_url "http://h/p?a=1&b=2&a=3" = "http://h/p?a=1&a=3&b=2" ∧
    normalize_url "http://h/p?a=1&b=2&a=3" ≠ "http://h/p?a=1&b=2&a=3" :=
  ⟨by decide, by decide, by decide, by decide, by decide⟩
